import Mathlib

/-!
Verification of `src/bin/epicode.py` (epicode pipeline).

The Python source is shallowly embedded below.  Raw read counts are
natural numbers, the sentinel is the integer -1, float matrices are
modelled over ℚ (exact pipeline arithmetic) or ℝ (log/exp based
size-factor and sigmoid/whitening arithmetic), and numpy NaN ("missing
value") is modelled as `Option.none`.  Each embedded definition carries
the name of the Python function it translates.
-/

set_option maxHeartbeats 1000000
set_option linter.unusedSectionVars false

/-- A BED region as used by the extraction loops: (chromosome, start, end).
Regions with negative start are dropped by `parse_bed`, so coordinates are ℕ. -/
abbrev Region : Type := String × ℕ × ℕ

/-- The read-count collaborator `Samfile.count`: chromosome, start, end ↦ count. -/
abbrev BamCount : Type := String → ℕ → ℕ → ℕ

/-- Number of columns of a row-major matrix (numpy `shape[1]`, taken from the
first row; matrices produced by the pipeline are rectangular). -/
def width (m : List (List α)) : ℕ := (m.head?.map List.length).getD 0

/-! ## Absolute extraction: `parse_bam_absolute` -/

/-- Translation of `parse_bam_absolute`: for each region append
`float(bam.count(chr, start, end)) / (end - start)` to the result list. -/
def parse_bam_absolute (bam : BamCount) (regs : List Region) : List ℚ :=
  match regs with
  | [] => []
  | (chr, start, stop) :: rest =>
      ((bam chr start stop : ℚ) / ((stop : ℚ) - (start : ℚ))) :: parse_bam_absolute bam rest

/-! ## Differential extraction: `parse_bam_differential` -/

/-- Fuel-driven evaluator of Python `xrange(start, stop, step)` (ascending,
`step > 0`); `xrangeAux fuel` is exact whenever `stop - start ≤ fuel`. -/
def xrangeAux : ℕ → ℕ → ℕ → ℕ → List ℕ
  | 0, _, _, _ => []
  | fuel + 1, start, stop, step =>
      if start < stop then start :: xrangeAux fuel (start + step) stop step else []

/-- Python `xrange(start, stop, step)` for a positive step (the only way the
source calls it).  For `step = 0` Python raises; we return `[]`. -/
def xrange (start stop step : ℕ) : List ℕ :=
  if step = 0 then [] else xrangeAux (stop - start) start stop step

/-- Translation of `parse_bam_differential`: for each region walk sub-windows
`[s, s+step)` with `s` from `xrange(start, end, step)`, appending the A-file
and B-file counts, then append the sentinel `-1` to both lists. -/
def parse_bam_differential (abam bbam : BamCount) (regs : List Region) (step : ℕ) :
    List ℤ × List ℤ :=
  match regs with
  | [] => ([], [])
  | (chr, start, stop) :: rest =>
      let tail := parse_bam_differential abam bbam rest step
      ((xrange start stop step).map (fun s => (abam chr s (s + step) : ℤ)) ++ -1 :: tail.1,
       (xrange start stop step).map (fun s => (bbam chr s (s + step) : ℤ)) ++ -1 :: tail.2)

/-- One region's block in the A-column of the differential count stream:
the window counts followed by the sentinel. -/
def diffBlock (bam : BamCount) (step : ℕ) (reg : Region) : List ℤ :=
  (xrange reg.2.1 reg.2.2 step).map (fun s => (bam reg.1 s (s + step) : ℤ)) ++ [-1]

/-! ## Output-existence guard of `extract_absolute` / `extract_differential` -/

/-- File-system model: the set of paths present in the output directory,
as written by previous runs. -/
abbrev FileSys : Type := List String

/-- `odn.listdir(pattern)` for the literal patterns the source uses
(`"<runid>_lvl.arr"` / `"<runid>_cnt.arr"`, no wildcards): the matching paths. -/
def listdirPat (fs : FileSys) (odn pat : String) : List String :=
  fs.filter (fun p => p = odn ++ "/" ++ pat)

/-- Translation of the `extract_absolute` task skeleton around its
`chk_exit(bool(odn.listdir("%s_lvl.arr" % runid)), ...)` guard: if the output
file for `runid` already exists the task aborts with the "exists" error
before any extraction work; otherwise it runs `parse_bam_absolute` per bam
and writes the fresh output file. -/
def extract_absolute (fs : FileSys) (bams : List BamCount) (regs : List Region)
    (odn runid : String) : Except String (FileSys × List (List ℚ)) :=
  if listdirPat fs odn (runid ++ "_lvl.arr") ≠ [] then
    Except.error ("error: " ++ runid ++ " exists in " ++ odn)
  else
    let counts := bams.map (fun bam => parse_bam_absolute bam regs)
    Except.ok ((odn ++ "/" ++ runid ++ "_lvl.arr") :: fs, counts)

/-- Translation of the `extract_differential` task skeleton around its
`chk_exit(bool(odn.listdir("%s_cnt.arr" % runid)), ...)` guard. -/
def extract_differential (fs : FileSys) (abams bbams : List BamCount)
    (regs : List Region) (step : ℕ) (odn runid : String) :
    Except String (FileSys × List (List ℤ × List ℤ)) :=
  if listdirPat fs odn (runid ++ "_cnt.arr") ≠ [] then
    Except.error ("error: " ++ runid ++ " exists in " ++ odn)
  else
    let counts := (abams.zip bbams).map
      (fun ab => parse_bam_differential ab.1 ab.2 regs step)
    Except.ok ((odn ++ "/" ++ runid ++ "_cnt.arr") :: fs, counts)

/-! ## Basic lemmas about the window iterator -/

theorem xrangeAux_congr (step : ℕ) (hstep : 0 < step) :
    ∀ f1 f2 start stop, stop - start ≤ f1 → stop - start ≤ f2 →
      xrangeAux f1 start stop step = xrangeAux f2 start stop step := by
  intro f1
  induction f1 with
  | zero =>
      intro f2 start stop h1 h2
      have hle : ¬ start < stop := by omega
      cases f2 with
      | zero => rfl
      | succ m => simp [xrangeAux, hle]
  | succ n ih =>
      intro f2 start stop h1 h2
      cases f2 with
      | zero =>
          have hle : ¬ start < stop := by omega
          simp [xrangeAux, hle]
      | succ m =>
          simp only [xrangeAux]
          by_cases hlt : start < stop
          · rw [if_pos hlt, if_pos hlt]
            rw [ih m (start + step) stop (by omega) (by omega)]
          · rw [if_neg hlt, if_neg hlt]

/-- Unfolding rule for `xrange` with a positive step: it really is Python's
`xrange` semantics. -/
theorem xrange_unfold (start stop step : ℕ) (hstep : 0 < step) :
    xrange start stop step =
      if start < stop then start :: xrange (start + step) stop step else [] := by
  unfold xrange
  rw [if_neg (by omega)]
  by_cases h : start < stop
  · rw [if_pos h, if_neg (by omega)]
    have h1 : stop - start = (stop - start - 1) + 1 := by omega
    rw [h1]
    simp only [xrangeAux, if_pos h]
    congr 1
    exact xrangeAux_congr step hstep (stop - start - 1) (stop - (start + step))
      (start + step) stop (by omega) (by omega)
  · rw [if_neg h]
    have h1 : stop - start = 0 := by omega
    rw [h1]
    rfl

/-- The number of windows `xrange(start, stop, step)` yields is the
ceiling of `(stop - start) / step` (in ℕ: `(stop - start + step - 1) / step`). -/
theorem xrange_length (step : ℕ) (hstep : 0 < step) :
    ∀ start stop, (xrange start stop step).length = (stop - start + step - 1) / step := by
  have H : ∀ fuel start stop, stop - start ≤ fuel →
      (xrange start stop step).length = (stop - start + step - 1) / step := by
    intro fuel
    induction fuel with
    | zero =>
        intro start stop h
        have h0 : stop - start = 0 := Nat.le_zero.mp h
        rw [xrange_unfold start stop step hstep, if_neg (by omega)]
        simp only [List.length_nil]
        rw [h0]
        exact (Nat.div_eq_of_lt (by omega)).symm
    | succ n ih =>
        intro start stop h
        rw [xrange_unfold start stop step hstep]
        by_cases hlt : start < stop
        · rw [if_pos hlt]
          simp only [List.length_cons]
          rw [ih (start + step) stop (by omega)]
          rcases Nat.lt_or_ge (stop) (start + step) with hc | hc
          · -- last window: remaining length 0, total 1
            have h1 : stop - (start + step) = 0 := by omega
            have h2 : 0 < stop - start ∧ stop - start ≤ step := by omega
            rw [h1]
            have h3 : (0 + step - 1) / step = 0 := Nat.div_eq_of_lt (by omega)
            rw [h3]
            have h4 : stop - start + step - 1 = (stop - start - 1) + 1 * step := by omega
            rw [h4, Nat.add_mul_div_right _ _ hstep]
            have h5 : (stop - start - 1) / step = 0 := Nat.div_eq_of_lt (by omega)
            omega
          · have h4 : stop - start + step - 1 = (stop - (start + step) + step - 1) + 1 * step := by
              omega
            rw [h4, Nat.add_mul_div_right _ _ hstep]
        · rw [if_neg hlt]
          simp only [List.length_nil]
          have h0 : stop - start = 0 := by omega
          rw [h0]
          exact (Nat.div_eq_of_lt (by omega)).symm
  intro start stop
  exact H (stop - start) start stop le_rfl

/-- In ℕ, `(a + b - 1) / b` is the ceiling of the rational `a / b`. -/
theorem nat_ceilDiv_eq (a b : ℕ) (hb : 0 < b) :
    ((a + b - 1) / b : ℕ) = ⌈(a : ℚ) / (b : ℚ)⌉₊ := by
  rcases Nat.eq_zero_or_pos a with ha | ha
  · subst ha
    simp only [Nat.zero_add, Nat.cast_zero, zero_div, Nat.ceil_zero]
    exact Nat.div_eq_of_lt (by omega)
  · have hq : (0 : ℚ) < (b : ℚ) := by exact_mod_cast hb
    set q := (a + b - 1) / b with hqdef
    have hq1 : 1 ≤ q := Nat.div_pos (by omega) hb
    have hdm : b * q + (a + b - 1) % b = a + b - 1 := Nat.div_add_mod _ _
    have hr : (a + b - 1) % b < b := Nat.mod_lt _ hb
    have hub : a ≤ b * q := by omega
    have hexp : b * (q - 1) + b = b * q := by
      have h1 : q - 1 + 1 = q := by omega
      calc b * (q - 1) + b = b * (q - 1 + 1) := by ring
        _ = b * q := by rw [h1]
    have hlb : b * (q - 1) < a := by omega
    symm
    rw [Nat.ceil_eq_iff (by omega)]
    refine ⟨?_, ?_⟩
    · rw [lt_div_iff₀ hq]
      have hc : ((q - 1 : ℕ) : ℚ) * (b : ℚ) = ((b * (q - 1) : ℕ) : ℚ) := by push_cast; ring
      rw [hc]
      exact_mod_cast hlb
    · rw [div_le_iff₀ hq]
      have hc : ((q : ℕ) : ℚ) * (b : ℚ) = ((b * q : ℕ) : ℚ) := by push_cast; ring
      rw [hc]
      exact_mod_cast hub

/-! ## Claim C4: differential extraction window blocks -/

theorem parse_bam_differential_length_eq (abam bbam : BamCount) (regs : List Region) (step : ℕ) :
    (parse_bam_differential abam bbam regs step).1.length =
      (parse_bam_differential abam bbam regs step).2.length := by
  induction regs with
  | nil => rfl
  | cons r rest ih =>
      obtain ⟨chr, start, stop⟩ := r
      simp only [parse_bam_differential, List.length_append, List.length_map, List.length_cons]
      omega

/-- The paired differential count stream: A-counts zipped with B-counts,
i.e. the (window, sentinel) pair rows of `extract_differential`'s matrix for
one bam pair. -/
def diffPairs (abam bbam : BamCount) (regs : List Region) (step : ℕ) : List (ℤ × ℤ) :=
  (parse_bam_differential abam bbam regs step).1.zip
    (parse_bam_differential abam bbam regs step).2

/-- Claim C4: for every region, differential extraction emits its window count
pairs followed by exactly one sentinel pair (-1, -1), region blocks in input
order, and for `start < end` and `step > 0` the number of window pairs of a
region is exactly `ceil((end - start) / step)`. -/
theorem parse_bam_differential_blocks (abam bbam : BamCount) (regs : List Region)
    (step : ℕ) (hstep : 0 < step) :
    diffPairs abam bbam regs step = regs.flatMap (fun reg =>
        (xrange reg.2.1 reg.2.2 step).map
          (fun s => ((abam reg.1 s (s + step) : ℤ), (bbam reg.1 s (s + step) : ℤ)))
        ++ [(-1, -1)]) ∧
      ∀ reg ∈ regs, reg.2.1 < reg.2.2 →
        (xrange reg.2.1 reg.2.2 step).length =
          ⌈((reg.2.2 - reg.2.1 : ℕ) : ℚ) / (step : ℚ)⌉₊ := by
  constructor
  · induction regs with
    | nil => rfl
    | cons r rest ih =>
        obtain ⟨chr, start, stop⟩ := r
        unfold diffPairs at *
        simp only [parse_bam_differential, List.flatMap_cons]
        rw [List.zip_append (by simp)]
        rw [List.zip_map' (fun s => ((abam chr s (s + step) : ℤ)))
          (fun s => ((bbam chr s (s + step) : ℤ)))]
        simp only [List.zip_cons_cons, List.append_assoc, List.singleton_append]
        rw [ih]
  · intro reg _ hlt
    rw [xrange_length step hstep]
    exact nat_ceilDiv_eq _ step hstep

/-- Witness for C4 at a concrete input: one region `chr1:0-250`, step 100,
constant counts 2 (A) and 3 (B): three windows and one trailing sentinel. -/
theorem parse_bam_differential_blocks_witness :
    (0 : ℕ) < 100 ∧
    diffPairs (fun _ _ _ => 2) (fun _ _ _ => 3) [("chr1", 0, 250)] 100 =
      [(("chr1", 0, 250) : Region)].flatMap (fun reg =>
        (xrange reg.2.1 reg.2.2 100).map (fun _ => (((2 : ℕ) : ℤ), ((3 : ℕ) : ℤ)))
        ++ [(-1, -1)]) ∧
    (xrange 0 250 100).length = ⌈((250 - 0 : ℕ) : ℚ) / (100 : ℚ)⌉₊ ∧
    diffPairs (fun _ _ _ => 2) (fun _ _ _ => 3) [("chr1", 0, 250)] 100 =
      [(2, 3), (2, 3), (2, 3), (-1, -1)] := by
  refine ⟨by norm_num,
    (parse_bam_differential_blocks (fun _ _ _ => 2) (fun _ _ _ => 3)
      [("chr1", 0, 250)] 100 (by norm_num)).1, ?_, by decide⟩
  exact (parse_bam_differential_blocks (fun _ _ _ => 2) (fun _ _ _ => 3)
      [("chr1", 0, 250)] 100 (by norm_num)).2 ("chr1", 0, 250) (by simp) (by norm_num)

/-! ## Claim C7: absolute extraction length normalization -/

/-- Claim C7: `parse_bam_absolute` returns, for each region in order, the raw
overlap count divided by `(end - start)`; a raw count of 0 normalizes to 0
(no error is possible: the function is total). -/
theorem parse_bam_absolute_normalized (bam : BamCount) (regs : List Region) :
    parse_bam_absolute bam regs =
      regs.map (fun reg => (bam reg.1 reg.2.1 reg.2.2 : ℚ) / ((reg.2.2 : ℚ) - (reg.2.1 : ℚ))) ∧
    ∀ reg ∈ regs, reg.2.1 < reg.2.2 → bam reg.1 reg.2.1 reg.2.2 = 0 →
      (bam reg.1 reg.2.1 reg.2.2 : ℚ) / ((reg.2.2 : ℚ) - (reg.2.1 : ℚ)) = 0 := by
  constructor
  · induction regs with
    | nil => rfl
    | cons r rest ih =>
        obtain ⟨chr, start, stop⟩ := r
        simp only [parse_bam_absolute, List.map_cons]
        rw [ih]
  · intro reg _ _ h0
    rw [h0]
    simp

/-- Witness for C7: an empty bam over `chr1:5-10` yields the normalized count
0 and the map-form output `[0]`. -/
theorem parse_bam_absolute_normalized_witness :
    (5 : ℕ) < 10 ∧ (fun (_ : String) (_ _ : ℕ) => (0 : ℕ)) "chr1" 5 10 = 0 ∧
    ((((fun (_ : String) (_ _ : ℕ) => (0 : ℕ)) "chr1" 5 10 : ℕ) : ℚ) /
      (((10 : ℕ) : ℚ) - ((5 : ℕ) : ℚ)) = 0) ∧
    parse_bam_absolute (fun _ _ _ => 0) [("chr1", 5, 10)] = [0] := by
  refine ⟨by norm_num, rfl, ?_, ?_⟩
  · exact (parse_bam_absolute_normalized (fun _ _ _ => 0) [("chr1", 5, 10)]).2
      ("chr1", 5, 10) (by simp) (by norm_num) rfl
  · rw [(parse_bam_absolute_normalized (fun _ _ _ => 0) [("chr1", 5, 10)]).1]
    norm_num

/-! ## Claim C8: refusal to overwrite existing output -/

theorem listdirPat_ne_nil_iff (fs : FileSys) (odn pat : String) :
    listdirPat fs odn pat ≠ [] ↔ (odn ++ "/" ++ pat) ∈ fs := by
  unfold listdirPat
  rw [ne_eq, List.filter_eq_nil_iff]
  constructor
  · intro h
    by_contra hmem
    exact h (fun a ha => by simp; intro he; exact hmem (he ▸ ha))
  · intro hmem h
    have := h _ hmem
    simp at this

/-- Claim C8: each extraction stage, independently, aborts with the "exists"
error when its own output file for `runid` is already present in `odn`; the
outcome does not depend on the extraction inputs (no extraction work is
used), and no ok-result — hence no overwrite of the existing file — is
produced.  The two stages check their own patterns (`_lvl.arr` and
`_cnt.arr`), so each conclusion needs only that stage's file to exist. -/
theorem extract_exists_fatal (fs : FileSys) (odn runid : String)
    (bams abams bbams : List BamCount) (regs : List Region) (step : ℕ) :
    ((odn ++ "/" ++ runid ++ "_lvl.arr") ∈ fs →
      extract_absolute fs bams regs odn runid =
        Except.error ("error: " ++ runid ++ " exists in " ++ odn) ∧
      (∀ bams2 regs2, extract_absolute fs bams2 regs2 odn runid =
        extract_absolute fs bams regs odn runid) ∧
      (∀ fs2 out, extract_absolute fs bams regs odn runid ≠ Except.ok (fs2, out))) ∧
    ((odn ++ "/" ++ runid ++ "_cnt.arr") ∈ fs →
      extract_differential fs abams bbams regs step odn runid =
        Except.error ("error: " ++ runid ++ " exists in " ++ odn) ∧
      (∀ abams2 bbams2 regs2 step2,
        extract_differential fs abams2 bbams2 regs2 step2 odn runid =
          extract_differential fs abams bbams regs step odn runid) ∧
      (∀ fs2 out, extract_differential fs abams bbams regs step odn runid ≠
        Except.ok (fs2, out))) := by
  constructor
  · intro habs
    have h1 : listdirPat fs odn (runid ++ "_lvl.arr") ≠ [] := by
      rw [listdirPat_ne_nil_iff]
      simpa [String.append_assoc] using habs
    refine ⟨?_, ?_, ?_⟩
    · unfold extract_absolute
      rw [if_pos h1]
    · intro bams2 regs2
      unfold extract_absolute
      rw [if_pos h1, if_pos h1]
    · intro fs2 out
      unfold extract_absolute
      rw [if_pos h1]
      exact fun h => Except.noConfusion h
  · intro hdiff
    have h2 : listdirPat fs odn (runid ++ "_cnt.arr") ≠ [] := by
      rw [listdirPat_ne_nil_iff]
      simpa [String.append_assoc] using hdiff
    refine ⟨?_, ?_, ?_⟩
    · unfold extract_differential
      rw [if_pos h2]
    · intro abams2 bbams2 regs2 step2
      unfold extract_differential
      rw [if_pos h2, if_pos h2]
    · intro fs2 out
      unfold extract_differential
      rw [if_pos h2]
      exact fun h => Except.noConfusion h

/-- Witness for C8 at concrete per-stage file systems: re-running
`extract_absolute` when only its own `run1_lvl.arr` exists aborts, and
re-running `extract_differential` when only its own `run1_cnt.arr` exists
aborts — each stage's refusal needs no file of the other stage. -/
theorem extract_exists_fatal_witness :
    ("out/run1_lvl.arr" ∈ (["out/run1_lvl.arr"] : FileSys)) ∧
    extract_absolute ["out/run1_lvl.arr"] [] [] "out" "run1" =
      Except.error ("error: " ++ "run1" ++ " exists in " ++ "out") ∧
    ("out/run1_cnt.arr" ∈ (["out/run1_cnt.arr"] : FileSys)) ∧
    extract_differential ["out/run1_cnt.arr"] [] [] [] 0 "out" "run1" =
      Except.error ("error: " ++ "run1" ++ " exists in " ++ "out") := by
  have hm1 : ("out" ++ "/" ++ "run1" ++ "_lvl.arr") ∈
      (["out/run1_lvl.arr"] : FileSys) := by decide
  have hm2 : ("out" ++ "/" ++ "run1" ++ "_cnt.arr") ∈
      (["out/run1_cnt.arr"] : FileSys) := by decide
  exact ⟨by decide,
    ((extract_exists_fatal ["out/run1_lvl.arr"] "out" "run1" [] [] [] [] 0).1 hm1).1,
    by decide,
    ((extract_exists_fatal ["out/run1_cnt.arr"] "out" "run1" [] [] [] [] 0).2 hm2).1⟩

/-! ## Gain/loss aggregation: `scale_differential` -/

section GainLoss

variable {α : Type} [LinearOrderedField α]

/-- `np.isnan(row).any()`: does the row contain a missing value? -/
def rowHasNaN (r : List (Option α)) : Bool := r.any Option.isNone

/-- NaN-propagating subtraction of two matrix entries (`bcols - acols`). -/
def subNaN : Option α → Option α → Option α
  | some b, some a => some (b - a)
  | _, _ => none

/-- Entries at even positions of a row (`row[0::2]`, the A-columns). -/
def evens : List β → List β
  | [] => []
  | [a] => [a]
  | a :: _ :: rest => a :: evens rest

/-- Entries at odd positions of a row (`row[1::2]`, the B-columns). -/
def odds (l : List β) : List β := evens l.tail

/-- One row of `dcols = bcols - acols`: per pair, delta = B - A. -/
def dRow (r : List (Option α)) : List (Option α) :=
  List.zipWith subNaN (odds r) (evens r)

/-- `for c, v in enumerate(row): if v > 0: gl[c*2][-1] += v`
(the gain accumulator update for one non-missing delta row). -/
def updGain (acc : List α) (row : List (Option α)) : List α :=
  List.zipWith (fun a v => if 0 < v.getD 0 then a + v.getD 0 else a) acc row

/-- `for c, v in enumerate(row): if v < 0: gl[c*2+1][-1] -= v`
(the loss accumulator update for one non-missing delta row). -/
def updLoss (acc : List α) (row : List (Option α)) : List α :=
  List.zipWith (fun a v => if v.getD 0 < 0 then a - v.getD 0 else a) acc row

/-- The inner `while True` loop of `scale_differential`: reads delta rows
unconditionally (`row = dcols[i]; i += 1; j += 1`), breaks at the first
missing-value row, and otherwise accumulates gains and losses.  Returns
`none` when the loop would read past the end of the matrix (an IndexError
in the source), otherwise the accumulators, the row count `j` consumed
(including the terminating missing-value row), and the remaining rows. -/
def sumBlock : List (List (Option α)) → List α → List α → ℕ →
    Option (List α × List α × ℕ × List (List (Option α)))
  | [], _, _, _ => none
  | r :: rest, g, l, j =>
      if rowHasNaN r then some (g, l, j + 1, rest)
      else sumBlock rest (updGain g r) (updLoss l r) (j + 1)

/-- `[g0, l0, g1, l1, ...]`: the per-block row of `gl` column entries. -/
def interleave : List α → List α → List α
  | g :: gs, l :: ls => g :: l :: interleave gs ls
  | _, _ => []

/-- A finished `gl` row for one region block: each accumulator entry divided
by the consumed row count `j` (`col[-1] /= float(j)`), interleaved as
gain/loss columns; for odd matrix width the untouched trailing `gl` column
contributes its appended and divided `0.0`. -/
def glRow (w : ℕ) (g l : List α) (j : ℕ) : List α :=
  interleave (g.map (· / (j : α))) (l.map (· / (j : α))) ++ List.replicate (w % 2) 0

/-- The outer `while i < dcols.shape[0]` loop of `scale_differential`, with
fuel; `glWalk` supplies enough fuel for exactness. -/
def glWalkAux : ℕ → ℕ → List (List (Option α)) → Option (List (List α))
  | _, _, [] => some []
  | 0, _, _ :: _ => none
  | fuel + 1, w, r :: rows =>
      match sumBlock (r :: rows) (List.replicate (w / 2) 0) (List.replicate (w / 2) 0) 0 with
      | none => none
      | some (g, l, j, rest) =>
          match glWalkAux fuel w rest with
          | none => none
          | some tl => some (glRow w g l j :: tl)

/-- The row walk of `scale_differential` over the delta matrix: one output
row per region block; `none` models the source reading past the last row. -/
def glWalk (w : ℕ) (rows : List (List (Option α))) : Option (List (List α)) :=
  glWalkAux rows.length w rows

/-- Numeric core of the `scale_differential` task: split the scaled paired
matrix into A- and B-columns, form delta rows, and walk region blocks
accumulating gains and losses. -/
def scale_differential (scaled : List (List (Option α))) : Option (List (List α)) :=
  glWalk (width scaled) (scaled.map dRow)

/-- Gain/loss accumulation over the non-missing rows of one block. -/
def blockAccum (rows : List (List (Option α))) (p : List α × List α) : List α × List α :=
  rows.foldl (fun p r => (updGain p.1 r, updLoss p.2 r)) p

theorem sumBlock_eq_none_iff (rows : List (List (Option α))) :
    ∀ g l j, sumBlock rows g l j = none ↔ ∀ r ∈ rows, rowHasNaN r = false := by
  induction rows with
  | nil => intro g l j; simp [sumBlock]
  | cons r rest ih =>
      intro g l j
      by_cases h : rowHasNaN r
      · simp [sumBlock, h]
      · simp only [sumBlock, if_neg h]
        rw [ih]
        constructor
        · intro hall r' hr'
          rcases List.mem_cons.mp hr' with h1 | h1
          · subst h1; exact Bool.eq_false_iff.mpr h
          · exact hall r' h1
        · intro hall r' hr'
          exact hall r' (List.mem_cons_of_mem _ hr')

theorem sumBlock_append (pre : List (List (Option α))) :
    ∀ t rest g l j, (∀ r ∈ pre, rowHasNaN r = false) → rowHasNaN t = true →
      sumBlock (pre ++ t :: rest) g l j =
        some ((blockAccum pre (g, l)).1, (blockAccum pre (g, l)).2,
          j + pre.length + 1, rest) := by
  induction pre with
  | nil =>
      intro t rest g l j _ ht
      simp [sumBlock, ht, blockAccum]
  | cons r pre' ih =>
      intro t rest g l j hpre ht
      have hr : rowHasNaN r = false := hpre r (List.mem_cons_self _ _)
      simp only [List.cons_append, sumBlock, hr, Bool.false_eq_true, if_false, List.append_eq]
      rw [ih t rest (updGain g r) (updLoss l r) (j + 1)
        (fun r' hr' => hpre r' (List.mem_cons_of_mem _ hr')) ht]
      simp only [blockAccum, List.foldl_cons, List.length_cons]
      have harith : j + 1 + pre'.length + 1 = j + (pre'.length + 1) + 1 := by omega
      rw [harith]

theorem sumBlock_some_decomp (rows : List (List (Option α))) :
    ∀ g l j g' l' j' rest, sumBlock rows g l j = some (g', l', j', rest) →
      ∃ pre t, rows = pre ++ t :: rest ∧ (∀ r ∈ pre, rowHasNaN r = false) ∧
        rowHasNaN t = true ∧ rest.length < rows.length := by
  induction rows with
  | nil => intro g l j g' l' j' rest h; exact absurd h (by simp [sumBlock])
  | cons r rest0 ih =>
      intro g l j g' l' j' rest h
      by_cases hr : rowHasNaN r
      · simp only [sumBlock, if_pos hr, Option.some.injEq, Prod.mk.injEq] at h
        obtain ⟨_, _, _, hrest⟩ := h
        subst hrest
        exact ⟨[], r, by simp, by simp, hr, by simp⟩
      · simp only [sumBlock, if_neg hr] at h
        obtain ⟨pre, t, heq, hpre, ht, hlen⟩ :=
          ih (updGain g r) (updLoss l r) (j + 1) g' l' j' rest h
        refine ⟨r :: pre, t, by rw [List.cons_append, heq], ?_, ht, ?_⟩
        · intro r' hr'
          rcases List.mem_cons.mp hr' with h1 | h1
          · subst h1; exact Bool.eq_false_iff.mpr hr
          · exact hpre r' h1
        · simp only [List.length_cons]
          omega

theorem glWalkAux_congr (w : ℕ) :
    ∀ f1 f2 (rows : List (List (Option α))), rows.length ≤ f1 → rows.length ≤ f2 →
      glWalkAux f1 w rows = glWalkAux f2 w rows := by
  intro f1
  induction f1 with
  | zero =>
      intro f2 rows h1 h2
      have : rows = [] := List.length_eq_zero.mp (by omega)
      subst this
      cases f2 <;> rfl
  | succ n ih =>
      intro f2 rows h1 h2
      cases rows with
      | nil => cases f2 <;> rfl
      | cons r rest =>
          cases f2 with
          | zero => simp at h2
          | succ m =>
              simp only [glWalkAux]
              cases hsb : sumBlock (r :: rest) (List.replicate (w / 2) 0)
                  (List.replicate (w / 2) 0) 0 with
              | none => rfl
              | some out =>
                  obtain ⟨g, l, j, rem⟩ := out
                  obtain ⟨pre, t, heq, hpre, ht, hlen⟩ :=
                    sumBlock_some_decomp _ _ _ _ _ _ _ _ hsb
                  simp only [List.length_cons] at h1 h2
                  dsimp only
                  simp only [List.length_cons] at hlen
                  rw [ih m rem (by omega) (by omega)]

theorem glWalk_step (w : ℕ) (rows : List (List (Option α))) (h : rows ≠ []) :
    glWalk w rows =
      match sumBlock rows (List.replicate (w / 2) 0) (List.replicate (w / 2) 0) 0 with
      | none => none
      | some (g, l, j, rest) => (glWalk w rest).map (fun tl => glRow w g l j :: tl) := by
  obtain ⟨x, xs, hxx⟩ := List.exists_cons_of_ne_nil h
  subst hxx
  unfold glWalk
  simp only [List.length_cons, glWalkAux]
  cases hsb : sumBlock (x :: xs) (List.replicate (w / 2) 0) (List.replicate (w / 2) 0) 0 with
  | none => rfl
  | some out =>
      obtain ⟨g, l, j, rem⟩ := out
      obtain ⟨pre, t, heq, hpre, ht, hlen⟩ := sumBlock_some_decomp _ _ _ _ _ _ _ _ hsb
      simp only [List.length_cons] at hlen
      dsimp only
      rw [glWalkAux_congr w xs.length rem.length rem (by omega) le_rfl]
      cases glWalkAux rem.length w rem <;> rfl

theorem glWalk_block (w : ℕ) (pre rest : List (List (Option α))) (t : List (Option α))
    (hpre : ∀ r ∈ pre, rowHasNaN r = false) (ht : rowHasNaN t = true) :
    glWalk w (pre ++ t :: rest) =
      (glWalk w rest).map (fun tl =>
        glRow w (blockAccum pre (List.replicate (w / 2) 0, List.replicate (w / 2) 0)).1
          (blockAccum pre (List.replicate (w / 2) 0, List.replicate (w / 2) 0)).2
          (pre.length + 1) :: tl) := by
  rw [glWalk_step w _ (by simp)]
  rw [sumBlock_append pre t rest _ _ 0 hpre ht]
  dsimp only
  rw [Nat.zero_add]

theorem glWalk_isSome_iff (w : ℕ) (rows : List (List (Option α))) :
    (glWalk w rows).isSome = true ↔
      (rows = [] ∨ ∃ r, rows.getLast? = some r ∧ rowHasNaN r = true) := by
  have H : ∀ (n : ℕ) (rows : List (List (Option α))), rows.length ≤ n →
      ((glWalk w rows).isSome = true ↔
        (rows = [] ∨ ∃ r, rows.getLast? = some r ∧ rowHasNaN r = true)) := by
    intro n
    induction n with
    | zero =>
        intro rows hlen
        have : rows = [] := List.length_eq_zero.mp (by omega)
        subst this
        simp [glWalk, glWalkAux]
    | succ m ih =>
        intro rows hlen
        rcases List.eq_nil_or_concat rows with hnil | _
        · subst hnil
          simp [glWalk, glWalkAux]
        · have hne : rows ≠ [] := by
            rcases rows with _ | _
            · simp_all
            · simp
          rw [glWalk_step w rows hne]
          cases hsb : sumBlock rows (List.replicate (w / 2) 0) (List.replicate (w / 2) 0) 0 with
          | none =>
              have hall : ∀ r ∈ rows, rowHasNaN r = false :=
                (sumBlock_eq_none_iff rows _ _ _).mp hsb
              simp only [Option.isSome_none, Bool.false_eq_true, false_iff]
              push_neg
              refine ⟨hne, ?_⟩
              intro r hlast
              obtain ⟨hne2, hrr⟩ :=
                List.mem_getLast?_eq_getLast (l := rows) (x := r) (Option.mem_def.mpr hlast)
              have hmem : r ∈ rows := hrr ▸ List.getLast_mem hne2
              simp [hall r hmem]
          | some out =>
              obtain ⟨g, l, j, rem⟩ := out
              obtain ⟨pre, t, heq, hpre, ht, hrem⟩ := sumBlock_some_decomp _ _ _ _ _ _ _ _ hsb
              dsimp only
              rw [Option.isSome_map']
              rcases List.eq_nil_or_concat rem with hremnil | _
              · subst hremnil
                subst heq
                simp only [glWalk, glWalkAux, Option.isSome_some, true_iff]
                right
                refine ⟨t, ?_, ht⟩
                rw [List.getLast?_append]
                simp
              · have hremne : rem ≠ [] := by
                  rcases rem with _ | _
                  · simp_all
                  · simp
                have hlast : rows.getLast? = rem.getLast? := by
                  subst heq
                  obtain ⟨a, as, ha⟩ := List.exists_cons_of_ne_nil hremne
                  subst ha
                  rw [List.getLast?_append, List.getLast?_cons_cons]
                  have hs : (a :: as).getLast?.isSome = true :=
                    List.getLast?_isSome.mpr (by simp)
                  obtain ⟨x, hx⟩ := Option.isSome_iff_exists.mp hs
                  rw [hx]
                  rfl
                rw [ih rem (by omega)]
                rw [hlast]
                constructor
                · intro hh
                  rcases hh with hh | hh
                  · exact absurd hh hremne
                  · exact Or.inr hh
                · intro hh
                  rcases hh with hh | hh
                  · exact absurd hh hne
                  · exact Or.inr hh
  exact H rows.length rows le_rfl

theorem evens_cons_tail (b : β) (t : List β) : evens (b :: t) = b :: evens t.tail := by
  cases t <;> rfl

theorem dRow_cons2 (a b : Option α) (t : List (Option α)) :
    dRow (a :: b :: t) = subNaN b a :: dRow t := by
  unfold dRow odds
  simp only [List.tail_cons]
  rw [evens_cons_tail b t]
  rfl

theorem evens_length : ∀ (l : List β), (evens l).length = (l.length + 1) / 2
  | [] => by simp [evens]
  | [_] => by simp [evens]
  | _ :: _ :: t => by
      simp only [evens, List.length_cons, evens_length t]
      omega

theorem dRow_length (r : List (Option α)) : (dRow r).length = r.length / 2 := by
  unfold dRow odds
  rw [List.length_zipWith, evens_length, evens_length]
  cases r with
  | nil => simp
  | cons a t => simp only [List.tail_cons, List.length_cons]; omega

theorem dRow_noNaN : ∀ (r : List (Option α)), rowHasNaN r = false → rowHasNaN (dRow r) = false
  | [], _ => rfl
  | [_], _ => rfl
  | a :: b :: t, h => by
      rw [dRow_cons2]
      simp only [rowHasNaN, List.any_cons, Bool.or_eq_false_iff] at h ⊢
      obtain ⟨ha, hb, ht⟩ := h
      refine ⟨?_, ?_⟩
      · cases a with
        | none => simp at ha
        | some x =>
            cases b with
            | none => simp at hb
            | some y => rfl
      · exact dRow_noNaN t ht

theorem nanRow_dRow : ∀ (t : List (Option α)), t.length % 2 = 0 → rowHasNaN t = true →
    rowHasNaN (dRow t) = true
  | [], _, h => by simp [rowHasNaN] at h
  | [_], hev, _ => by simp at hev
  | a :: b :: t, hev, h => by
      rw [dRow_cons2]
      simp only [rowHasNaN, List.any_cons, Bool.or_eq_true] at h ⊢
      rcases h with ha | hb | ht
      · left
        cases a with
        | none => cases b <;> rfl
        | some x => simp at ha
      · left
        cases b with
        | none => cases a <;> rfl
        | some y => simp at hb
      · right
        have hev' : t.length % 2 = 0 := by
          simp only [List.length_cons] at hev
          omega
        exact nanRow_dRow t hev' ht

theorem updGain_zeros : ∀ (n : ℕ) (row : List (Option α)), n ≤ row.length →
    (∀ x ∈ row, x = some (0 : α)) →
    updGain (List.replicate n 0) row = List.replicate n 0 := by
  intro n
  induction n with
  | zero => intro row _ _; simp [updGain]
  | succ m ih =>
      intro row h hz
      cases row with
      | nil => simp at h
      | cons v vs =>
          have hv : v = some 0 := hz v (List.mem_cons_self _ _)
          subst hv
          simp only [List.replicate_succ, updGain, List.zipWith_cons_cons, Option.getD_some,
            lt_irrefl, if_false]
          congr 1
          exact ih vs (by simpa using h) (fun x hx => hz x (List.mem_cons_of_mem _ hx))

theorem updLoss_zeros : ∀ (n : ℕ) (row : List (Option α)), n ≤ row.length →
    (∀ x ∈ row, x = some (0 : α)) →
    updLoss (List.replicate n 0) row = List.replicate n 0 := by
  intro n
  induction n with
  | zero => intro row _ _; simp [updLoss]
  | succ m ih =>
      intro row h hz
      cases row with
      | nil => simp at h
      | cons v vs =>
          have hv : v = some 0 := hz v (List.mem_cons_self _ _)
          subst hv
          simp only [List.replicate_succ, updLoss, List.zipWith_cons_cons, Option.getD_some,
            lt_irrefl, if_false]
          congr 1
          exact ih vs (by simpa using h) (fun x hx => hz x (List.mem_cons_of_mem _ hx))

theorem blockAccum_zeros (n : ℕ) : ∀ (rows : List (List (Option α))),
    (∀ r ∈ rows, n ≤ r.length ∧ ∀ x ∈ r, x = some (0 : α)) →
    blockAccum rows (List.replicate n 0, List.replicate n 0) =
      (List.replicate n 0, List.replicate n 0) := by
  intro rows
  induction rows with
  | nil => intro _; rfl
  | cons r rs ih =>
      intro h
      obtain ⟨hlen, hz⟩ := h r (List.mem_cons_self _ _)
      simp only [blockAccum, List.foldl_cons]
      rw [updGain_zeros n r hlen hz, updLoss_zeros n r hlen hz]
      exact ih (fun r' hr' => h r' (List.mem_cons_of_mem _ hr'))

theorem interleave_replicate (x : α) :
    ∀ n, interleave (List.replicate n x) (List.replicate n x) = List.replicate (2 * n) x
  | 0 => rfl
  | n + 1 => by
      simp only [List.replicate_succ, interleave, interleave_replicate x n]
      have h2 : 2 * (n + 1) = (2 * n) + 1 + 1 := by ring
      rw [h2, List.replicate_succ, List.replicate_succ]

/-- Claim C1 (amended): within one region's window block, `scale_differential`
sums positive deltas into gain and absolute negative deltas into loss and
stops at the first missing-value row; both sums are then divided by the total
number of rows the inner loop consumed INCLUDING the terminating missing-value
row (`j` is incremented before the NaN test), i.e. one more than the number of
windows summed.  A region whose delta sequence is entirely zero yields 0 for
both gain and loss. -/
theorem scale_differential_region_aggregation (npairs : ℕ)
    (data rows2 : List (List (Option ℚ))) (t : List (Option ℚ))
    (_hnp : 1 ≤ npairs)
    (hdl : ∀ r ∈ data, r.length = 2 * npairs)
    (hdn : ∀ r ∈ data, rowHasNaN r = false)
    (htl : t.length = 2 * npairs)
    (htn : rowHasNaN t = true) :
    scale_differential (data ++ t :: rows2) =
      (glWalk (2 * npairs) (rows2.map dRow)).map (fun tl =>
        glRow (2 * npairs)
          (blockAccum (data.map dRow)
            (List.replicate npairs 0, List.replicate npairs 0)).1
          (blockAccum (data.map dRow)
            (List.replicate npairs 0, List.replicate npairs 0)).2
          (data.length + 1) :: tl) ∧
    ((∀ r ∈ data, ∀ x ∈ dRow r, x = some 0) →
      glRow (2 * npairs)
        (blockAccum (data.map dRow)
          (List.replicate npairs 0, List.replicate npairs 0)).1
        (blockAccum (data.map dRow)
          (List.replicate npairs 0, List.replicate npairs 0)).2
        (data.length + 1) = List.replicate (2 * npairs) 0) := by
  have h2 : 2 * npairs / 2 = npairs := by omega
  constructor
  · have hw : width (data ++ t :: rows2) = 2 * npairs := by
      cases data with
      | nil => simpa [width] using htl
      | cons d ds => simpa [width] using hdl d (List.mem_cons_self _ _)
    unfold scale_differential
    rw [hw, List.map_append, List.map_cons]
    rw [glWalk_block (2 * npairs) (data.map dRow) (rows2.map dRow) (dRow t)
      (fun r hr => by
        obtain ⟨r0, hr0, hrr⟩ := List.mem_map.mp hr
        exact hrr ▸ dRow_noNaN r0 (hdn r0 hr0))
      (nanRow_dRow t (by rw [htl]; omega) htn)]
    rw [h2, List.length_map]
  · intro hz
    have hacc : blockAccum (data.map dRow)
        (List.replicate npairs (0 : ℚ), List.replicate npairs 0) =
        (List.replicate npairs 0, List.replicate npairs 0) := by
      apply blockAccum_zeros
      intro r hr
      obtain ⟨r0, hr0, hrr⟩ := List.mem_map.mp hr
      subst hrr
      refine ⟨?_, hz r0 hr0⟩
      rw [dRow_length, hdl r0 hr0]
      omega
    rw [hacc]
    unfold glRow
    simp only [List.map_replicate, zero_div]
    rw [interleave_replicate]
    have h0 : (2 * npairs) % 2 = 0 := by omega
    rw [h0]
    simp

/-- Counterexample to C1 as stated: a single-window region with delta +5
(scaled pair row `[0, 5]`, then the missing-value row).  The inner loop counts
the terminating missing-value row in `j`, so the block divides by 2: the gain
is 5/2, not the 5 the claim requires. -/
theorem scale_differential_single_window_counterexample :
    scale_differential [[some (0 : ℚ), some 5], [none, none]] = some [[5 / 2, 0]] ∧
    ¬ (5 / 2 = (5 : ℚ)) := by
  constructor
  · norm_num [scale_differential, width, glWalk, glWalkAux, sumBlock, rowHasNaN, dRow, odds,
      evens, subNaN, updGain, updLoss, glRow, interleave, List.zipWith]
  · norm_num

/-- Witness for C1 (amended) at a concrete input: one region of one window
with delta 0 (scaled pair row `[3, 3]`) followed by the missing-value row:
the divisor is 2 and the output row is all zeros. -/
theorem scale_differential_region_aggregation_witness :
    (1 ≤ 1) ∧ (∀ r ∈ [[some (3 : ℚ), some 3]], List.length r = 2 * 1) ∧
    (∀ r ∈ [[some (3 : ℚ), some 3]], rowHasNaN r = false) ∧
    (List.length ([none, none] : List (Option ℚ)) = 2 * 1 ∧
      rowHasNaN ([none, none] : List (Option ℚ)) = true) ∧
    scale_differential ([[some (3 : ℚ), some 3]] ++ [none, none] :: []) =
      (glWalk (2 * 1) (List.map dRow [])).map (fun tl =>
        glRow (2 * 1)
          (blockAccum (List.map dRow [[some (3 : ℚ), some 3]])
            (List.replicate 1 0, List.replicate 1 0)).1
          (blockAccum (List.map dRow [[some (3 : ℚ), some 3]])
            (List.replicate 1 0, List.replicate 1 0)).2
          (List.length [[some (3 : ℚ), some 3]] + 1) :: tl) ∧
    glRow (2 * 1)
      (blockAccum (List.map dRow [[some (3 : ℚ), some 3]])
        (List.replicate 1 0, List.replicate 1 0)).1
      (blockAccum (List.map dRow [[some (3 : ℚ), some 3]])
        (List.replicate 1 0, List.replicate 1 0)).2
      (List.length [[some (3 : ℚ), some 3]] + 1) = List.replicate (2 * 1) 0 := by
  have h := scale_differential_region_aggregation 1 [[some (3 : ℚ), some 3]] []
    [none, none] (le_refl 1) (by decide) (by decide) (by decide) (by decide)
  exact ⟨le_refl 1, by decide, by decide, ⟨by decide, by decide⟩, h.1,
    h.2 (by norm_num [dRow, odds, evens, subNaN])⟩

end GainLoss

/-! ## Pair scaling: `scapair` (DESeq size factors), over ℝ -/

/-- numpy `np.mean(..., axis=1)` of one row. -/
noncomputable def rowMean (r : List ℝ) : ℝ := r.sum / r.length

/-- numpy `np.median` along an axis: `none` for an empty column (numpy's NaN),
otherwise the middle element of the sorted values (odd count) or the average
of the two middle elements (even count). -/
noncomputable def median (l : List ℝ) : Option ℝ :=
  if l.length = 0 then none
  else
    let s := List.insertionSort (· ≤ ·) l
    if l.length % 2 = 1 then some (s.getD (l.length / 2) 0)
    else some ((s.getD (l.length / 2 - 1) 0 + s.getD (l.length / 2) 0) / 2)

theorem insertionSort_map_add (c : ℝ) (l : List ℝ) :
    List.insertionSort (· ≤ ·) (l.map (· + c)) =
      (List.insertionSort (· ≤ ·) l).map (· + c) := by
  have hperm : List.Perm (List.insertionSort (· ≤ ·) (l.map (· + c)))
      ((List.insertionSort (· ≤ ·) l).map (· + c)) :=
    (List.perm_insertionSort _ _).trans
      (((List.perm_insertionSort (· ≤ ·) l).map _).symm)
  have hs1 : List.Sorted (· ≤ ·) (List.insertionSort (· ≤ ·) (l.map (· + c))) :=
    List.sorted_insertionSort _ _
  have hs2 : List.Sorted (· ≤ ·) ((List.insertionSort (· ≤ ·) l).map (· + c)) :=
    List.Pairwise.map _ (fun a b hab => by simpa using hab)
      (List.sorted_insertionSort (· ≤ ·) l)
  exact List.eq_of_perm_of_sorted hperm hs1 hs2

theorem insertionSort_map_neg (l : List ℝ) :
    List.insertionSort (· ≤ ·) (l.map (fun x => -x)) =
      ((List.insertionSort (· ≤ ·) l).map (fun x => -x)).reverse := by
  have hperm : List.Perm (List.insertionSort (· ≤ ·) (l.map (fun x => -x)))
      (((List.insertionSort (· ≤ ·) l).map (fun x => -x)).reverse) := by
    refine (List.perm_insertionSort _ _).trans ?_
    refine (((List.perm_insertionSort (· ≤ ·) l).map _).symm).trans ?_
    exact (List.reverse_perm _).symm
  have hs1 : List.Sorted (· ≤ ·) (List.insertionSort (· ≤ ·) (l.map (fun x => -x))) :=
    List.sorted_insertionSort _ _
  have hs2 : List.Sorted (· ≤ ·) (((List.insertionSort (· ≤ ·) l).map (fun x => -x)).reverse) := by
    rw [List.Sorted, List.pairwise_reverse]
    exact List.Pairwise.map _ (fun a b hab => by simpa using hab)
      (List.sorted_insertionSort (· ≤ ·) l)
  exact List.eq_of_perm_of_sorted hperm hs1 hs2

theorem median_isSome (l : List ℝ) (h : l ≠ []) : ∃ m, median l = some m := by
  unfold median
  rw [if_neg (by simpa using h)]
  by_cases hodd : l.length % 2 = 1
  · rw [if_pos hodd]
    exact ⟨_, rfl⟩
  · rw [if_neg hodd]
    exact ⟨_, rfl⟩

theorem getD_map_add (c : ℝ) (s : List ℝ) (i : ℕ) (h : i < s.length) :
    (s.map (· + c)).getD i 0 = s.getD i 0 + c := by
  rw [List.getD_eq_getElem?_getD, List.getD_eq_getElem?_getD, List.getElem?_map]
  cases hx : s[i]? with
  | none =>
      rw [List.getElem?_eq_none_iff] at hx
      omega
  | some v => simp

theorem getD_reverse_map_neg (s : List ℝ) (i : ℕ) (h : i < s.length) :
    ((s.map (fun x => -x)).reverse).getD i 0 = -(s.getD (s.length - 1 - i) 0) := by
  rw [List.getD_eq_getElem?_getD, List.getD_eq_getElem?_getD]
  rw [List.getElem?_reverse (by simpa using h)]
  rw [List.getElem?_map]
  have hidx : (s.map fun x => -x).length - 1 - i = s.length - 1 - i := by simp
  rw [hidx]
  cases hx : s[s.length - 1 - i]? with
  | none =>
      rw [List.getElem?_eq_none_iff] at hx
      omega
  | some v => simp

theorem median_map_add (c : ℝ) (l : List ℝ) :
    median (l.map (· + c)) = (median l).map (· + c) := by
  unfold median
  rw [List.length_map]
  by_cases h0 : l.length = 0
  · rw [if_pos h0, if_pos h0]
    rfl
  · rw [if_neg h0, if_neg h0]
    rw [insertionSort_map_add c l]
    have hlen : (List.insertionSort (· ≤ ·) l).length = l.length :=
      List.length_insertionSort _ _
    by_cases hodd : l.length % 2 = 1
    · rw [if_pos hodd, if_pos hodd]
      rw [getD_map_add c _ _ (by omega)]
      rfl
    · rw [if_neg hodd, if_neg hodd]
      have hn2 : 2 ≤ l.length := by omega
      rw [getD_map_add c _ _ (by omega), getD_map_add c _ _ (by omega)]
      rw [Option.map_some']
      congr 1
      ring

theorem median_map_neg (l : List ℝ) :
    median (l.map (fun x => -x)) = (median l).map (fun x => -x) := by
  unfold median
  rw [List.length_map]
  by_cases h0 : l.length = 0
  · rw [if_pos h0, if_pos h0]
    rfl
  · rw [if_neg h0, if_neg h0]
    rw [insertionSort_map_neg l]
    have hlen : (List.insertionSort (· ≤ ·) l).length = l.length :=
      List.length_insertionSort _ _
    by_cases hodd : l.length % 2 = 1
    · rw [if_pos hodd, if_pos hodd]
      rw [getD_reverse_map_neg _ _ (by omega)]
      rw [hlen]
      have hix : l.length - 1 - l.length / 2 = l.length / 2 := by omega
      rw [hix]
      rfl
    · rw [if_neg hodd, if_neg hodd]
      have hn2 : 2 ≤ l.length := by omega
      rw [getD_reverse_map_neg _ _ (by omega), getD_reverse_map_neg _ _ (by omega)]
      rw [hlen]
      have hix1 : l.length - 1 - (l.length / 2 - 1) = l.length / 2 := by omega
      have hix2 : l.length - 1 - l.length / 2 = l.length / 2 - 1 := by omega
      rw [hix1, hix2]
      rw [Option.map_some']
      congr 1
      ring

/-- Translation of the nested `size_factors` of `scapair`: keep the rows whose
counts are all nonzero (`counts[np.alltrue(counts, axis=1)]`), take elementwise
logs, subtract each row's mean log (`loggeommeans`), then per column take the
median over rows and exponentiate.  `w` is the numpy column count `shape[1]`
of `counts` (carried explicitly because an empty list of rows loses it); the
median of an empty selection is numpy's NaN, modelled as `none`. -/
noncomputable def size_factors (w : ℕ) (counts : List (List ℝ)) : List (Option ℝ) :=
  let kept := counts.filter (fun r => r.all (fun x => decide (x ≠ 0)))
  let logcounts := kept.map (fun r => r.map Real.log)
  let centered := logcounts.map (fun r => r.map (fun x => x - rowMean r))
  (List.range w).map (fun j => (median (centered.map (fun r => r.getD j 0))).map Real.exp)

/-- `np.alltrue(raw != -1, axis=1)` for one row: no sentinel entry anywhere. -/
noncomputable def rowSel (r : List ℝ) : Bool := r.all (fun x => decide (x ≠ -1))

/-- The per-column size factors of `scapair`: column `c` receives component
`c % 2` of `size_factors` applied to the two-column slice
`tmp[:, 2*(c/2) : 2*(c/2)+2]` of the globally valid rows `tmp = raw[sel]`. -/
noncomputable def pairSfs (raw : List (List ℝ)) : List (Option ℝ) :=
  let tmp := raw.filter rowSel
  let w := width raw
  (List.range w).map (fun c =>
    (size_factors (min 2 (w - 2 * (c / 2)))
      (tmp.map (fun r => (r.drop (2 * (c / 2))).take 2))).getD (c % 2) none)

/-- One output row of `scapair`: a globally valid row is overwritten column by
column with `pair / sf` (a NaN size factor propagates NaN); any other row
keeps its values except that sentinel entries are marked NaN
(`scaled[raw == -1] = np.nan`). -/
noncomputable def scapairRow (sfs : List (Option ℝ)) (r : List ℝ) : List (Option ℝ) :=
  if rowSel r then
    (List.range r.length).map (fun c => (sfs.getD c none).map (fun s => r.getD c 0 / s))
  else
    r.map (fun x => if x = -1 then none else some x)

/-- The `"deseq"` branch of `scapair`. -/
noncomputable def scapairDeseq (raw : List (List ℝ)) : List (List (Option ℝ)) :=
  raw.map (scapairRow (pairSfs raw))

/-- Translation of `scapair`: method dispatch plus the DESeq branch. -/
noncomputable def scapair (raw : List (List ℝ)) (method : String) :
    Except String (List (List (Option ℝ))) :=
  if method = "deseq" then Except.ok (scapairDeseq raw) else Except.error "unknown method"

theorem getD_range_map {γ : Type} (f : ℕ → γ) (w c : ℕ) (d : γ) (h : c < w) :
    ((List.range w).map f).getD c d = f c := by
  rw [List.getD_eq_getElem?_getD, List.getElem?_map, List.getElem?_range h]
  rfl

theorem getD_none_of_all_none {γ : Type} (L : List (Option γ)) (k : ℕ)
    (h : ∀ x ∈ L, x = none) : L.getD k none = none := by
  rw [List.getD_eq_getElem?_getD]
  cases hx : L[k]? with
  | none => rfl
  | some v =>
      rw [h v (List.getElem?_mem hx)]
      rfl

/-- Claim C2 (amended): when, for a pair of columns, every globally valid row
has a zero count inside that pair, the DESeq size factor is numpy's median of
an empty selection, i.e. NaN: `scapair` still succeeds (no error is raised),
the pair's size factor is the NaN marker, and every globally valid row's
entries in that pair become NaN — the pair is neither scaled by 1 nor passed
through unchanged. -/
theorem scapair_undefined_size_factor (raw : List (List ℝ)) (c : ℕ)
    (h : ∀ r ∈ raw.filter rowSel, ∃ x, x ∈ (r.drop (2 * (c / 2))).take 2 ∧ x = 0) :
    scapair raw "deseq" = Except.ok (scapairDeseq raw) ∧
    (pairSfs raw).getD c none = none ∧
    (∀ r ∈ raw, rowSel r = true → c < r.length →
      (scapairRow (pairSfs raw) r).getD c (some 0) = none) := by
  have hsf : (pairSfs raw).getD c none = none := by
    by_cases hc : c < width raw
    · unfold pairSfs
      rw [getD_range_map _ _ _ _ hc]
      apply getD_none_of_all_none
      intro x hx
      unfold size_factors at hx
      simp only [List.mem_map, List.mem_range] at hx
      obtain ⟨j, _, hxe⟩ := hx
      have hkept : (List.map (fun r => (r.drop (2 * (c / 2))).take 2)
          (raw.filter rowSel)).filter (fun r => r.all (fun x => decide (x ≠ 0))) = [] := by
        rw [List.filter_eq_nil_iff]
        intro row hrow
        obtain ⟨r0, hr0, hslice⟩ := List.mem_map.mp hrow
        obtain ⟨x0, hx0mem, hx00⟩ := h r0 hr0
        subst hslice
        simp only [List.all_eq_true, not_forall]
        refine ⟨x0, hx0mem, ?_⟩
        subst hx00
        simp
      rw [hkept] at hxe
      simp only [List.map_nil, median] at hxe
      simp at hxe
      exact hxe.symm
    · apply List.getD_eq_default
      unfold pairSfs
      simp only [List.length_map, List.length_range]
      omega
  refine ⟨by simp [scapair], hsf, ?_⟩
  intro r _hr hsel hc
  unfold scapairRow
  rw [if_pos hsel]
  rw [getD_range_map _ _ _ _ hc]
  rw [hsf]
  rfl

/-- Counterexample to C2 as stated: the paired input `[[1, 0]]` has its only
(globally valid) row containing a zero count, so no row qualifies for size
factor estimation — yet `scapair` returns a successful result (the all-NaN
matrix), not an error. -/
theorem scapair_no_error_counterexample :
    scapair [[(1 : ℝ), 0]] "deseq" = Except.ok [[none, none]] := by
  have hsel : rowSel [(1 : ℝ), 0] = true := by norm_num [rowSel]
  have hfil : (([[(1 : ℝ), 0]] : List (List ℝ)).filter rowSel) = [[(1 : ℝ), 0]] := by
    rw [List.filter_cons_of_pos hsel]
    rfl
  have hkept : (([[(1 : ℝ), 0]] : List (List ℝ)).filter
      (fun r => r.all (fun x => decide (x ≠ 0)))) = [] := by
    rw [List.filter_cons_of_neg]
    · rfl
    · norm_num
  have hsf0 : size_factors 2 [[(1 : ℝ), 0]] = [none, none] := by
    unfold size_factors
    rw [hkept]
    rfl
  have hstep : pairSfs [[(1 : ℝ), 0]] =
      [(size_factors 2 [[(1 : ℝ), 0]]).getD 0 none,
       (size_factors 2 [[(1 : ℝ), 0]]).getD 1 none] := by
    unfold pairSfs
    rw [hfil]
    rfl
  have hpsf : pairSfs [[(1 : ℝ), 0]] = [none, none] := by
    rw [hstep, hsf0]
    rfl
  have hrow : scapairRow [none, none] [(1 : ℝ), 0] = [none, none] := by
    unfold scapairRow
    rw [if_pos hsel]
    rfl
  show (if "deseq" = "deseq" then Except.ok (scapairDeseq [[(1 : ℝ), 0]])
    else Except.error "unknown method") = Except.ok [[none, none]]
  rw [if_pos rfl]
  unfold scapairDeseq
  rw [hpsf]
  rw [List.map_cons, hrow]
  rfl

/-- Witness for C2 (amended) at the concrete input `[[1, 0]]`, pair column 0:
the size factor is NaN and the valid row's entries become NaN, with no error. -/
theorem scapair_undefined_size_factor_witness :
    (∀ r ∈ ([[(1 : ℝ), 0]] : List (List ℝ)).filter rowSel,
      ∃ x, x ∈ (r.drop (2 * (0 / 2))).take 2 ∧ x = 0) ∧
    scapair [[(1 : ℝ), 0]] "deseq" = Except.ok (scapairDeseq [[(1 : ℝ), 0]]) ∧
    (pairSfs [[(1 : ℝ), 0]]).getD 0 none = none ∧
    (∀ r ∈ ([[(1 : ℝ), 0]] : List (List ℝ)), rowSel r = true → 0 < r.length →
      (scapairRow (pairSfs [[(1 : ℝ), 0]]) r).getD 0 (some 0) = none) := by
  have hh : ∀ r ∈ ([[(1 : ℝ), 0]] : List (List ℝ)).filter rowSel,
      ∃ x, x ∈ (r.drop (2 * (0 / 2))).take 2 ∧ x = 0 := by
    intro r hr
    have hmem : r ∈ ([[(1 : ℝ), 0]] : List (List ℝ)) := List.mem_of_mem_filter hr
    simp only [List.mem_singleton] at hmem
    subst hmem
    exact ⟨0, by norm_num, rfl⟩
  obtain ⟨h1, h2, h3⟩ := scapair_undefined_size_factor [[(1 : ℝ), 0]] 0 hh
  exact ⟨hh, h1, h2, h3⟩

theorem rowMean_pair (u v : ℝ) : rowMean [u, v] = (u + v) / 2 := by
  unfold rowMean
  norm_num

theorem size_factors_pair (l : List (ℝ × ℝ)) (hpos : ∀ p ∈ l, 0 < p.1 ∧ 0 < p.2) :
    size_factors 2 (l.map (fun p => [p.1, p.2])) =
      [(median (l.map (fun p => (Real.log p.1 - Real.log p.2) / 2))).map Real.exp,
       (median (l.map (fun p => (Real.log p.2 - Real.log p.1) / 2))).map Real.exp] := by
  unfold size_factors
  have hfil : (l.map (fun p => [p.1, p.2])).filter
      (fun r => r.all (fun x => decide (x ≠ 0))) = l.map (fun p => [p.1, p.2]) := by
    apply List.filter_eq_self.mpr
    intro r hr
    obtain ⟨p, hp, hre⟩ := List.mem_map.mp hr
    subst hre
    obtain ⟨h1, h2⟩ := hpos p hp
    simp only [List.all_cons, List.all_nil, Bool.and_true, Bool.and_eq_true,
      decide_eq_true_eq]
    exact ⟨h1.ne', h2.ne'⟩
  rw [hfil]
  simp only [List.map_map]
  rw [show List.range 2 = [0, 1] from rfl]
  simp only [List.map_cons, List.map_nil]
  congr 2
  · congr 1
    apply List.map_congr_left
    intro p _
    simp only [Function.comp_apply, List.map_cons, List.map_nil, List.getD_cons_zero]
    rw [rowMean_pair]
    ring
  · congr 2
    apply List.map_congr_left
    intro p _
    simp only [Function.comp_apply, List.map_cons, List.map_nil, List.getD_cons_succ,
      List.getD_cons_zero]
    rw [rowMean_pair]
    ring

/-- Claim C3: for a paired count matrix with no zero and no sentinel entries,
the DESeq size factors `exp(median(log(counts) - rowMean(log(counts))))` are
positive, they are exactly what `scapair` computes per pair column, and
dividing the pair's two columns by them and recomputing size factors on the
scaled data yields exactly 1 for both columns. -/
theorem scapair_size_factor_idempotent (l : List (ℝ × ℝ)) (hne : l ≠ [])
    (hpos : ∀ p ∈ l, 0 < p.1 ∧ 0 < p.2) :
    ∃ a b, 0 < a ∧ 0 < b ∧
      size_factors 2 (l.map (fun p => [p.1, p.2])) = [some a, some b] ∧
      pairSfs (l.map (fun p => [p.1, p.2])) = [some a, some b] ∧
      size_factors 2 (l.map (fun p => [p.1 / a, p.2 / b])) = [some 1, some 1] := by
  obtain ⟨m, hm⟩ := median_isSome (l.map (fun p => (Real.log p.1 - Real.log p.2) / 2))
    (by simpa using hne)
  have hcol2 : l.map (fun p => (Real.log p.2 - Real.log p.1) / 2) =
      (l.map (fun p => (Real.log p.1 - Real.log p.2) / 2)).map (fun x => -x) := by
    rw [List.map_map]
    apply List.map_congr_left
    intro p _
    simp only [Function.comp_apply]
    ring
  have hm2 : median (l.map (fun p => (Real.log p.2 - Real.log p.1) / 2)) = some (-m) := by
    rw [hcol2, median_map_neg, hm]
    rfl
  have hsf : size_factors 2 (l.map (fun p => [p.1, p.2])) =
      [some (Real.exp m), some (Real.exp (-m))] := by
    rw [size_factors_pair l hpos, hm, hm2]
    rfl
  refine ⟨Real.exp m, Real.exp (-m), Real.exp_pos m, Real.exp_pos (-m), hsf, ?_, ?_⟩
  · -- pairSfs agrees with size_factors on the single pair
    unfold pairSfs
    have hfilsel : (l.map (fun p => [p.1, p.2])).filter rowSel =
        l.map (fun p => [p.1, p.2]) := by
      apply List.filter_eq_self.mpr
      intro r hr
      obtain ⟨p, hp, hre⟩ := List.mem_map.mp hr
      subst hre
      obtain ⟨h1, h2⟩ := hpos p hp
      simp only [rowSel, List.all_cons, List.all_nil, Bool.and_true, Bool.and_eq_true,
        decide_eq_true_eq]
      exact ⟨fun heq => by rw [heq] at h1; norm_num at h1,
        fun heq => by rw [heq] at h2; norm_num at h2⟩
    rw [hfilsel]
    have hw : width (l.map (fun p => [p.1, p.2])) = 2 := by
      obtain ⟨p, t, hlt⟩ := List.exists_cons_of_ne_nil hne
      subst hlt
      rfl
    rw [hw]
    dsimp only
    rw [show List.range 2 = [0, 1] from rfl]
    simp only [List.map_cons, List.map_nil, List.drop_zero]
    norm_num
    have htake : List.map ((fun r => List.take 2 r) ∘ fun p : ℝ × ℝ => [p.1, p.2]) l =
        List.map (fun p : ℝ × ℝ => [p.1, p.2]) l := rfl
    rw [htake, hsf]
    exact ⟨rfl, rfl⟩
  · -- idempotence
    have hpos2 : ∀ q ∈ l.map (fun p => (p.1 / Real.exp m, p.2 / Real.exp (-m))),
        0 < q.1 ∧ 0 < q.2 := by
      intro q hq
      obtain ⟨p, hp, hqe⟩ := List.mem_map.mp hq
      subst hqe
      obtain ⟨h1, h2⟩ := hpos p hp
      exact ⟨div_pos h1 (Real.exp_pos _), div_pos h2 (Real.exp_pos _)⟩
    have hmaps : l.map (fun p => [p.1 / Real.exp m, p.2 / Real.exp (-m)]) =
        (l.map (fun p => (p.1 / Real.exp m, p.2 / Real.exp (-m)))).map
          (fun p => [p.1, p.2]) := by
      rw [List.map_map]
      rfl
    rw [hmaps, size_factors_pair _ hpos2]
    have hc1 : (l.map (fun p => (p.1 / Real.exp m, p.2 / Real.exp (-m)))).map
        (fun p => (Real.log p.1 - Real.log p.2) / 2) =
        (l.map (fun p => (Real.log p.1 - Real.log p.2) / 2)).map (· + (-m)) := by
      rw [List.map_map, List.map_map]
      apply List.map_congr_left
      intro p hp
      obtain ⟨h1, h2⟩ := hpos p hp
      simp only [Function.comp_apply]
      rw [Real.log_div h1.ne' (Real.exp_ne_zero m),
        Real.log_div h2.ne' (Real.exp_ne_zero (-m)), Real.log_exp, Real.log_exp]
      ring
    have hc2 : (l.map (fun p => (p.1 / Real.exp m, p.2 / Real.exp (-m)))).map
        (fun p => (Real.log p.2 - Real.log p.1) / 2) =
        ((l.map (fun p => (Real.log p.1 - Real.log p.2) / 2)).map (fun x => -x)).map
          (· + m) := by
      rw [List.map_map, List.map_map, List.map_map]
      apply List.map_congr_left
      intro p hp
      obtain ⟨h1, h2⟩ := hpos p hp
      simp only [Function.comp_apply]
      rw [Real.log_div h1.ne' (Real.exp_ne_zero m),
        Real.log_div h2.ne' (Real.exp_ne_zero (-m)), Real.log_exp, Real.log_exp]
      ring
    rw [hc1, hc2, median_map_add, median_map_add, median_map_neg, hm]
    simp only [Option.map_some']
    norm_num

/-- Witness for C3 at the concrete one-row pair matrix `[[1, 1]]`. -/
theorem scapair_size_factor_idempotent_witness :
    (([((1 : ℝ), (1 : ℝ))] : List (ℝ × ℝ)) ≠ []) ∧
    (∀ p ∈ ([((1 : ℝ), (1 : ℝ))] : List (ℝ × ℝ)), 0 < p.1 ∧ 0 < p.2) ∧
    ∃ a b, 0 < a ∧ 0 < b ∧
      size_factors 2 (([((1 : ℝ), (1 : ℝ))] : List (ℝ × ℝ)).map (fun p => [p.1, p.2])) =
        [some a, some b] ∧
      pairSfs (([((1 : ℝ), (1 : ℝ))] : List (ℝ × ℝ)).map (fun p => [p.1, p.2])) =
        [some a, some b] ∧
      size_factors 2 (([((1 : ℝ), (1 : ℝ))] : List (ℝ × ℝ)).map
        (fun p => [p.1 / a, p.2 / b])) = [some 1, some 1] := by
  have hne : ([((1 : ℝ), (1 : ℝ))] : List (ℝ × ℝ)) ≠ [] := by simp
  have hpos : ∀ p ∈ ([((1 : ℝ), (1 : ℝ))] : List (ℝ × ℝ)), 0 < p.1 ∧ 0 < p.2 := by
    intro p hp
    simp only [List.mem_singleton] at hp
    subst hp
    norm_num
  exact ⟨hne, hpos, scapair_size_factor_idempotent _ hne hpos⟩

/-! ## Totality of the gain/loss walk on pipeline inputs (C10) -/

/-- The raw two-column count matrix of one bam pair as column-stacked by
`process_bam_differential` and reloaded as floats by `scale_pairs`. -/
noncomputable def diffRawRows (abam bbam : BamCount) (regs : List Region) (step : ℕ) :
    List (List ℝ) :=
  List.zipWith (fun (a b : ℤ) => [(a : ℝ), (b : ℝ)])
    (parse_bam_differential abam bbam regs step).1
    (parse_bam_differential abam bbam regs step).2

theorem parse_bam_differential_getLast (abam bbam : BamCount) (step : ℕ) :
    ∀ regs : List Region, regs ≠ [] →
      (parse_bam_differential abam bbam regs step).1.getLast? = some (-1) ∧
      (parse_bam_differential abam bbam regs step).2.getLast? = some (-1) := by
  intro regs
  induction regs with
  | nil => intro h; exact absurd rfl h
  | cons r rest ih =>
      intro _
      obtain ⟨chr, start, stop⟩ := r
      simp only [parse_bam_differential]
      cases rest with
      | nil =>
          constructor <;>
            · rw [List.getLast?_append]
              rfl
      | cons r2 rest2 =>
          obtain ⟨ih1, ih2⟩ := ih (by simp)
          constructor
          · rw [List.getLast?_append]
            have hne : (parse_bam_differential abam bbam (r2 :: rest2) step).1 ≠ [] := by
              intro hemp
              rw [hemp] at ih1
              simp at ih1
            obtain ⟨a, as, ha⟩ := List.exists_cons_of_ne_nil hne
            rw [ha] at ih1 ⊢
            rw [List.getLast?_cons_cons, ih1]
            rfl
          · rw [List.getLast?_append]
            have hne : (parse_bam_differential abam bbam (r2 :: rest2) step).2 ≠ [] := by
              intro hemp
              rw [hemp] at ih2
              simp at ih2
            obtain ⟨a, as, ha⟩ := List.exists_cons_of_ne_nil hne
            rw [ha] at ih2 ⊢
            rw [List.getLast?_cons_cons, ih2]
            rfl

theorem zipWith_getLast {γ δ ε : Type} (f : γ → δ → ε) :
    ∀ (as : List γ) (bs : List δ) (a : γ) (b : δ), as.length = bs.length →
      as.getLast? = some a → bs.getLast? = some b →
      (List.zipWith f as bs).getLast? = some (f a b) := by
  intro as
  induction as with
  | nil =>
      intro bs a b _ ha _
      simp at ha
  | cons x xs ih =>
      intro bs a b hlen ha hb
      cases bs with
      | nil => simp at hlen
      | cons y ys =>
          cases xs with
          | nil =>
              cases ys with
              | nil =>
                  simp only [List.getLast?_singleton, Option.some.injEq] at ha hb
                  subst ha
                  subst hb
                  rfl
              | cons y2 ys2 => simp at hlen
          | cons x2 xs2 =>
              cases ys with
              | nil => simp at hlen
              | cons y2 ys2 =>
                  simp only [List.zipWith_cons_cons]
                  rw [List.getLast?_cons_cons] at ha hb
                  have hz := ih (y2 :: ys2) a b (by simpa using hlen) ha hb
                  rw [show List.zipWith f (x2 :: xs2) (y2 :: ys2) =
                    f x2 y2 :: List.zipWith f xs2 ys2 from rfl] at hz
                  rw [List.getLast?_cons_cons]
                  exact hz

/-- Claim C10: the row walk of `scale_differential` is total (returns a result
rather than reading past the last row) precisely when the delta matrix is
empty or its final row — hence every region block, the final one included —
is terminated by a row containing a missing value; and inputs coming from
`extract_differential` through the DESeq pair scaling always satisfy this,
because every region ends with a (-1, -1) sentinel pair which the scaler
turns into a missing-value row. -/
theorem scale_differential_totality :
    (∀ (w : ℕ) (rows : List (List (Option ℝ))),
      (glWalk w rows).isSome = true ↔
        (rows = [] ∨ ∃ r, rows.getLast? = some r ∧ rowHasNaN r = true)) ∧
    (∀ (abam bbam : BamCount) (regs : List Region) (step : ℕ), regs ≠ [] →
      (scale_differential (scapairDeseq (diffRawRows abam bbam regs step))).isSome = true) := by
  refine ⟨fun w rows => glWalk_isSome_iff w rows, ?_⟩
  intro abam bbam regs step hne
  obtain ⟨hl1, hl2⟩ := parse_bam_differential_getLast abam bbam step regs hne
  have hlenE : (parse_bam_differential abam bbam regs step).1.length =
      (parse_bam_differential abam bbam regs step).2.length :=
    parse_bam_differential_length_eq abam bbam regs step
  have hraw : (diffRawRows abam bbam regs step).getLast? = some [(-1 : ℝ), -1] := by
    unfold diffRawRows
    have hz := zipWith_getLast (fun a b : ℤ => [(a : ℝ), (b : ℝ)])
      (parse_bam_differential abam bbam regs step).1
      (parse_bam_differential abam bbam regs step).2 (-1) (-1) hlenE hl1 hl2
    push_cast at hz
    exact hz
  have hselF : rowSel [(-1 : ℝ), -1] = false := by
    simp [rowSel]
  have hrowlast : scapairRow (pairSfs (diffRawRows abam bbam regs step))
      [(-1 : ℝ), -1] = [none, none] := by
    unfold scapairRow
    rw [if_neg (by rw [hselF]; exact Bool.false_ne_true)]
    norm_num
  have hm : (scapairDeseq (diffRawRows abam bbam regs step)).getLast? =
      some [none, none] := by
    unfold scapairDeseq
    rw [List.getLast?_map, hraw]
    simp only [Option.map_some']
    rw [hrowlast]
  unfold scale_differential
  rw [glWalk_isSome_iff]
  right
  refine ⟨dRow [none, none], ?_, rfl⟩
  rw [List.getLast?_map, hm]
  rfl

/-- Witness for C10: the totality characterization applied to a concrete
NaN-terminated delta matrix, and the pipeline guarantee at a concrete
one-region extraction. -/
theorem scale_differential_totality_witness :
    (([[some (1 : ℝ)], [none]] : List (List (Option ℝ))) = [] ∨
      ∃ r, ([[some (1 : ℝ)], [none]] : List (List (Option ℝ))).getLast? = some r ∧
        rowHasNaN r = true) ∧
    (glWalk 2 ([[some (1 : ℝ)], [none]] : List (List (Option ℝ)))).isSome = true ∧
    (([("chr1", 0, 1)] : List Region) ≠ []) ∧
    (scale_differential (scapairDeseq (diffRawRows (fun _ _ _ => 0) (fun _ _ _ => 0)
      [("chr1", 0, 1)] 1))).isSome = true := by
  have hcond : (([[some (1 : ℝ)], [none]] : List (List (Option ℝ))) = [] ∨
      ∃ r, ([[some (1 : ℝ)], [none]] : List (List (Option ℝ))).getLast? = some r ∧
        rowHasNaN r = true) := Or.inr ⟨[none], rfl, rfl⟩
  exact ⟨hcond, (scale_differential_totality.1 2 _).mpr hcond,
    by simp, scale_differential_totality.2 _ _ _ _ (by simp)⟩

/-! ## Feature scaling: `dsig` / `scarr` -/

/-- Python negative-index wraparound used by numpy indexing of the sorted
data in `mquantiles`. -/
noncomputable def getWrapped (s : List ℝ) (i : ℤ) : ℝ :=
  if i < 0 then s.getD (s.length - (-i).toNat) 0 else s.getD i.toNat 0

/-- `scipy.stats.mstats.mquantiles` for one probability `p` on one data row,
with the default plotting positions `alphap = betap = 0.4`:
`m = alphap + p*(1 - alphap - betap)`, `aleph = n*p + m`,
`k = floor(clip(aleph, 1, n-1))`, `gamma = clip(aleph - k, 0, 1)`, result
`(1-gamma)*sorted[k-1] + gamma*sorted[k]` (numpy clip lets the upper bound
win when the bounds cross, as happens for `n = 1`). -/
noncomputable def mquantile (xs : List ℝ) (p : ℝ) : ℝ :=
  let n := xs.length
  let s := List.insertionSort (· ≤ ·) xs
  let m := 0.4 + p * (1 - 0.4 - 0.4)
  let aleph := (n : ℝ) * p + m
  let k : ℤ := ⌊min (max aleph 1) ((n : ℝ) - 1)⌋
  let gamma := min (max (aleph - (k : ℝ)) 0) 1
  (1 - gamma) * getWrapped s (k - 1) + gamma * getWrapped s k

/-- One entry of `dsig`: subtract `loc`; the negative branch is divided by
`-0.5*alpha_l` only when `alpha_l` is nonzero (`if alpha_l:`), the
nonnegative branch by `-0.5*alpha_r` only when `alpha_r` is nonzero; then
`np.power(1 + np.exp(.), -1)`. -/
noncomputable def dsigPoint (lq loc uq x : ℝ) : ℝ :=
  let alpha_l := loc - lq
  let alpha_r := uq - loc
  let y := x - loc
  let z := if y < 0 then (if alpha_l ≠ 0 then y / (-0.5 * alpha_l) else y)
           else (if alpha_r ≠ 0 then y / (-0.5 * alpha_r) else y)
  (1 + Real.exp z)⁻¹

/-- Translation of `dsig` on one feature column. -/
noncomputable def dsig (a : List ℝ) (lq loc uq : ℝ) : List ℝ :=
  a.map (fun x => dsigPoint lq loc uq x)

/-- One column transform of `scarr` in sigmoid mode: quantiles at
`(0.0, 0.0, hi)` — both lower markers at the 0th percentile — then
`(dsig(col, lq, mu, uq) - 0.5) * 2`. -/
noncomputable def sigCol (hi : ℝ) (col : List ℝ) : List ℝ :=
  (dsig col (mquantile col 0) (mquantile col 0) (mquantile col hi)).map
    (fun v => (v - 0.5) * 2)

/-- numpy `np.std(data, axis=1, ddof=1)` of one column: the square root of
the sum of squared deviations divided by `n - 1`. -/
noncomputable def stdCol (col : List ℝ) : ℝ :=
  Real.sqrt ((col.map (fun x => (x - rowMean col) ^ 2)).sum / ((col.length : ℝ) - 1))

/-- One column transform of `scarr` in whitening mode: divide by the sample
standard deviation; a zero deviation is replaced by NaN first
(`dev[dev == 0] = np.nan`), so a constant column comes out all-NaN. -/
noncomputable def whitenCol (col : List ℝ) : List (Option ℝ) :=
  if stdCol col = 0 then col.map (fun _ => none)
  else col.map (fun x => some (x / stdCol col))

/-- The columns of a rectangular loci×features matrix (`data = arr.T`). -/
def colsOf (m : List (List γ)) (d : γ) : List (List γ) :=
  (List.range (width m)).map (fun j => m.map (fun r => r.getD j d))

/-- `scarr` with a `sig<p>` method: transform each feature column of
`data = arr.T` by the double sigmoid and return `data.T`. -/
noncomputable def scarrSig (hi : ℝ) (arr : List (List ℝ)) : List (List ℝ) :=
  colsOf ((colsOf arr 0).map (sigCol hi)) 0

/-- `scarr` with the `"whiten"` method. -/
noncomputable def scarrWhiten (arr : List (List ℝ)) : List (List (Option ℝ)) :=
  colsOf ((colsOf arr 0).map whitenCol) none

theorem dsigPoint_pos_lt_one (lq loc uq x : ℝ) :
    0 < dsigPoint lq loc uq x ∧ dsigPoint lq loc uq x < 1 := by
  unfold dsigPoint
  constructor
  · positivity
  · apply inv_lt_one_of_one_lt₀
    have := Real.exp_pos (if x - loc < 0 then (if loc - lq ≠ 0 then
      (x - loc) / (-0.5 * (loc - lq)) else x - loc)
      else (if uq - loc ≠ 0 then (x - loc) / (-0.5 * (uq - loc)) else x - loc))
    linarith

theorem mem_colsOf {γ : Type} (m : List (List γ)) (d : γ) (row : List γ) (x : γ)
    (hrow : row ∈ colsOf m d) (hx : x ∈ row) :
    (∃ r ∈ m, x ∈ r) ∨ x = d := by
  unfold colsOf at hrow
  obtain ⟨j, _, hje⟩ := List.mem_map.mp hrow
  subst hje
  obtain ⟨r, hr, hre⟩ := List.mem_map.mp hx
  by_cases hj : j < r.length
  · left
    refine ⟨r, hr, ?_⟩
    rw [← hre, List.getD_eq_getElem r d hj]
    exact List.getElem_mem hj
  · right
    rw [← hre]
    exact List.getD_eq_default r d (by omega)

theorem mem_insertionSort_iff (l : List ℝ) (x : ℝ) :
    x ∈ List.insertionSort (· ≤ ·) l ↔ x ∈ l :=
  (List.perm_insertionSort (· ≤ ·) l).mem_iff

/-- All quantiles of a constant column equal the constant. -/
theorem mquantile_const (col : List ℝ) (c p : ℝ) (hne : col ≠ [])
    (h : ∀ x ∈ col, x = c) : mquantile col p = c := by
  unfold mquantile
  dsimp only
  have hlen : (List.insertionSort (· ≤ ·) col).length = col.length :=
    List.length_insertionSort _ _
  have hs : ∀ x ∈ List.insertionSort (· ≤ ·) col, x = c := by
    intro x hx
    exact h x ((mem_insertionSort_iff col x).mp hx)
  have hn1 : 1 ≤ col.length := by
    cases col with
    | nil => exact absurd rfl hne
    | cons a t => simp
  have hgetc : ∀ i : ℕ, i < col.length →
      (List.insertionSort (· ≤ ·) col).getD i 0 = c := by
    intro i hi
    rw [List.getD_eq_getElem _ _ (by omega)]
    exact hs _ (List.getElem_mem (by omega))
  set s := List.insertionSort (· ≤ ·) col with hsdef
  set n := col.length with hndef
  set aleph := (n : ℝ) * p + (0.4 + p * (1 - 0.4 - 0.4)) with haleph
  set k : ℤ := ⌊min (max aleph 1) ((n : ℝ) - 1)⌋ with hk
  rcases Nat.lt_or_ge n 2 with hn2 | hn2
  · -- n = 1
    have hn : n = 1 := by omega
    have hkv : k = 0 := by
      rw [hk]
      have hz : ((n : ℝ) - 1) = 0 := by rw [hn]; norm_num
      have hmin : min (max aleph 1) ((n : ℝ) - 1) = (n : ℝ) - 1 :=
        min_eq_right (by rw [hz]; exact le_trans zero_le_one (le_max_right _ _))
      rw [hmin, hz]
      exact Int.floor_zero
    rw [hkv]
    have hg1 : getWrapped s (0 - 1) = c := by
      unfold getWrapped
      rw [if_pos (by norm_num)]
      have hidx : s.length - ((-(0 - 1) : ℤ)).toNat = 0 := by
        rw [hlen]
        omega
      rw [hidx]
      exact hgetc 0 (by omega)
    have hg2 : getWrapped s 0 = c := by
      unfold getWrapped
      rw [if_neg (by norm_num)]
      exact hgetc 0 (by omega)
    rw [hg1, hg2]
    ring
  · -- n ≥ 2
    have hclip_lo : (1 : ℝ) ≤ min (max aleph 1) ((n : ℝ) - 1) := by
      apply le_min (le_max_right _ _)
      have h2r : (2 : ℝ) ≤ (n : ℝ) := by exact_mod_cast hn2
      linarith
    have hclip_hi : min (max aleph 1) ((n : ℝ) - 1) ≤ (n : ℝ) - 1 := min_le_right _ _
    have hk_lo : 1 ≤ k := by
      rw [hk]
      exact Int.le_floor.mpr (by exact_mod_cast hclip_lo)
    have hk_hi : k ≤ (n : ℤ) - 1 := by
      rw [hk]
      have h1 : (⌊min (max aleph 1) ((n : ℝ) - 1)⌋ : ℤ) ≤ ⌊((n : ℝ) - 1)⌋ :=
        Int.floor_le_floor hclip_hi
      have h2 : ⌊((n : ℝ) - 1)⌋ = (n : ℤ) - 1 := by
        rw [show ((n : ℝ) - 1) = (((n : ℤ) - 1 : ℤ) : ℝ) by push_cast; ring]
        exact Int.floor_intCast _
      omega
    have hg1 : getWrapped s (k - 1) = c := by
      unfold getWrapped
      rw [if_neg (by omega)]
      apply hgetc
      omega
    have hg2 : getWrapped s k = c := by
      unfold getWrapped
      rw [if_neg (by omega)]
      apply hgetc
      omega
    rw [hg1, hg2]
    ring

/-- The minimum of a column (0th-percentile location). -/
noncomputable def minD : List ℝ → ℝ
  | [] => 0
  | a :: t => t.foldl min a

theorem foldl_min_le_init (a : ℝ) : ∀ t : List ℝ, t.foldl min a ≤ a
  | [] => le_refl a
  | b :: t => le_trans (foldl_min_le_init (min a b) t) (min_le_left a b)

theorem foldl_min_le_mem (x : ℝ) : ∀ (t : List ℝ) (a : ℝ), x ∈ t → t.foldl min a ≤ x
  | [], _, hx => absurd hx (List.not_mem_nil x)
  | b :: t, a, hx => by
      rcases List.mem_cons.mp hx with h | h
      · subst h
        exact le_trans (foldl_min_le_init (min a x) t) (min_le_right a x)
      · exact foldl_min_le_mem x t (min a b) h

theorem foldl_min_mem : ∀ (t : List ℝ) (a : ℝ), t.foldl min a = a ∨ t.foldl min a ∈ t
  | [], _ => Or.inl rfl
  | b :: t, a => by
      rcases foldl_min_mem t (min a b) with h | h
      · rcases min_choice a b with hm | hm
        · left
          simp only [List.foldl_cons]
          rw [h, hm]
        · right
          simp only [List.foldl_cons]
          rw [h, hm]
          exact List.mem_cons_self _ _
      · right
        exact List.mem_cons_of_mem _ h

theorem minD_le (col : List ℝ) (x : ℝ) (hx : x ∈ col) : minD col ≤ x := by
  cases col with
  | nil => cases hx
  | cons a t =>
      rcases List.mem_cons.mp hx with h | h
      · subst h
        exact foldl_min_le_init x t
      · exact foldl_min_le_mem x t a h

theorem minD_mem (col : List ℝ) (hne : col ≠ []) : minD col ∈ col := by
  cases col with
  | nil => exact absurd rfl hne
  | cons a t =>
      rcases foldl_min_mem t a with h | h
      · simp only [minD]
        rw [h]
        exact List.mem_cons_self _ _
      · simp only [minD]
        exact List.mem_cons_of_mem _ h

theorem insertionSort_getD_zero (col : List ℝ) (hne : col ≠ []) :
    (List.insertionSort (· ≤ ·) col).getD 0 0 = minD col := by
  have hlen : (List.insertionSort (· ≤ ·) col).length = col.length :=
    List.length_insertionSort _ _
  have hne2 : List.insertionSort (· ≤ ·) col ≠ [] := by
    intro hemp
    apply hne
    have := hlen
    rw [hemp] at this
    exact List.length_eq_zero.mp this.symm
  obtain ⟨h0, t0, hcons⟩ := List.exists_cons_of_ne_nil hne2
  rw [hcons, List.getD_cons_zero]
  apply le_antisymm
  · have hmem : minD col ∈ h0 :: t0 := by
      rw [← hcons]
      exact (mem_insertionSort_iff col _).mpr (minD_mem col hne)
    rcases List.mem_cons.mp hmem with h | h
    · rw [h]
    · have hsorted := List.sorted_insertionSort (· ≤ ·) col
      rw [hcons] at hsorted
      exact (List.sorted_cons.mp hsorted).1 _ h
  · apply minD_le
    rw [← mem_insertionSort_iff col h0, hcons]
    exact List.mem_cons_self _ _

/-- The degenerate lower quantile: the 0th percentile of a column is its
minimum (so in `scarr`'s sigmoid mode the location is the column minimum). -/
theorem mquantile_zero_eq_min (col : List ℝ) (hne : col ≠ []) :
    mquantile col 0 = minD col := by
  unfold mquantile
  dsimp only
  have hn1 : 1 ≤ col.length := by
    cases col with
    | nil => exact absurd rfl hne
    | cons a t => simp
  have hlen : (List.insertionSort (· ≤ ·) col).length = col.length :=
    List.length_insertionSort _ _
  have haleph : (col.length : ℝ) * 0 + (0.4 + 0 * (1 - 0.4 - 0.4)) = 0.4 := by norm_num
  rw [haleph]
  rcases Nat.lt_or_ge col.length 2 with hn2 | hn2
  · have hn : col.length = 1 := by omega
    have hkv : (⌊min (max (0.4 : ℝ) 1) ((col.length : ℝ) - 1)⌋ : ℤ) = 0 := by
      have hz : ((col.length : ℝ) - 1) = 0 := by rw [hn]; norm_num
      have hmin : min (max (0.4 : ℝ) 1) ((col.length : ℝ) - 1) = (col.length : ℝ) - 1 :=
        min_eq_right (by rw [hz]; exact le_trans zero_le_one (le_max_right _ _))
      rw [hmin, hz]
      exact Int.floor_zero
    rw [hkv]
    have hg1 : getWrapped (List.insertionSort (· ≤ ·) col) (0 - 1) =
        (List.insertionSort (· ≤ ·) col).getD 0 0 := by
      unfold getWrapped
      rw [if_pos (by norm_num)]
      have hidx : (List.insertionSort (· ≤ ·) col).length - ((-(0 - 1) : ℤ)).toNat = 0 := by
        rw [hlen]
        omega
      rw [hidx]
    have hg2 : getWrapped (List.insertionSort (· ≤ ·) col) 0 =
        (List.insertionSort (· ≤ ·) col).getD 0 0 := by
      unfold getWrapped
      rw [if_neg (by norm_num)]
      rfl
    rw [hg1, hg2, insertionSort_getD_zero col hne]
    ring
  · have hmax : max (0.4 : ℝ) 1 = 1 := max_eq_right (by norm_num)
    have h2r : (2 : ℝ) ≤ (col.length : ℝ) := by exact_mod_cast hn2
    have hmin : min (max (0.4 : ℝ) 1) ((col.length : ℝ) - 1) = 1 := by
      rw [hmax]
      exact min_eq_left (by linarith)
    have hkv : (⌊min (max (0.4 : ℝ) 1) ((col.length : ℝ) - 1)⌋ : ℤ) = 1 := by
      rw [hmin]
      exact Int.floor_one
    rw [hkv]
    have hgam : min (max ((0.4 : ℝ) - ((1 : ℤ) : ℝ)) 0) 1 = 0 := by
      norm_num
    rw [hgam]
    have hg1 : getWrapped (List.insertionSort (· ≤ ·) col) (1 - 1) =
        (List.insertionSort (· ≤ ·) col).getD 0 0 := by
      unfold getWrapped
      rw [if_neg (by norm_num)]
      rfl
    rw [hg1, insertionSort_getD_zero col hne]
    ring

/-- Claim C5: `scarr` sigmoid scaling keeps every output value in [-1, 1];
a column whose every value equals its own upper-quantile location is mapped
entirely to 0; and a zero half-width skips the corresponding division (the
branch value stays `x - loc`) instead of dividing by zero. -/
theorem scarr_sigmoid_properties (hi : ℝ) :
    (∀ (arr : List (List ℝ)), ∀ row ∈ scarrSig hi arr, ∀ x ∈ row, -1 ≤ x ∧ x ≤ 1) ∧
    (∀ col : List ℝ, (∀ x ∈ col, x = mquantile col hi) →
      sigCol hi col = col.map (fun _ => 0)) ∧
    (∀ lq loc uq x : ℝ, uq = loc → loc ≤ x →
      dsigPoint lq loc uq x = (1 + Real.exp (x - loc))⁻¹) := by
  refine ⟨?_, ?_, ?_⟩
  · intro arr row hrow x hx
    rcases mem_colsOf _ _ _ _ hrow hx with ⟨r, hr, hxr⟩ | hx0
    · obtain ⟨col, _, hre⟩ := List.mem_map.mp hr
      subst hre
      unfold sigCol dsig at hxr
      rw [List.map_map] at hxr
      obtain ⟨y, _, hye⟩ := List.mem_map.mp hxr
      rw [← hye]
      simp only [Function.comp_apply]
      obtain ⟨h1, h2⟩ := dsigPoint_pos_lt_one (mquantile col 0) (mquantile col 0)
        (mquantile col hi) y
      constructor <;> nlinarith
    · rw [hx0]
      norm_num
  · intro col hconst
    by_cases hne : col = []
    · subst hne
      rfl
    · have hq0 : mquantile col 0 = mquantile col hi :=
        mquantile_const col (mquantile col hi) 0 hne hconst
      unfold sigCol dsig
      rw [List.map_map]
      apply List.map_congr_left
      intro x hxmem
      simp only [Function.comp_apply]
      rw [hconst x hxmem, hq0]
      unfold dsigPoint
      norm_num [Real.exp_zero]
  · intro lq loc uq x huq hle
    unfold dsigPoint
    dsimp only
    rw [if_neg (by rw [not_lt]; linarith)]
    rw [huq]
    norm_num

/-- Witness for C5: the matrix `[[0]]` (one region, one feature): the output
is `[[0]]`, inside [-1, 1]; the constant column `[5, 5]` maps to zeros; the
skip equation at `lq = loc = uq = 0`, `x = 0`. -/
theorem scarr_sigmoid_properties_witness :
    scarrSig 0.95 [[(0 : ℝ)]] = [[0]] ∧
    ([(0 : ℝ)] ∈ scarrSig 0.95 [[(0 : ℝ)]] ∧ (0 : ℝ) ∈ [(0 : ℝ)] ∧
      (-1 ≤ (0 : ℝ) ∧ (0 : ℝ) ≤ 1)) ∧
    ((∀ x ∈ [(5 : ℝ), 5], x = mquantile [(5 : ℝ), 5] 0.95) ∧
      sigCol 0.95 [(5 : ℝ), 5] = [(5 : ℝ), 5].map (fun _ => 0)) ∧
    ((0 : ℝ) = 0 ∧ (0 : ℝ) ≤ 0 ∧
      dsigPoint 0 0 0 0 = (1 + Real.exp ((0 : ℝ) - 0))⁻¹) := by
  have hq : ∀ p : ℝ, mquantile [(0 : ℝ)] p = 0 := fun p =>
    mquantile_const [0] 0 p (by simp) (by intro x hx; simpa using hx)
  have hsig0 : sigCol 0.95 [(0 : ℝ)] = [0] := by
    unfold sigCol dsig
    rw [hq 0, hq 0.95]
    simp only [List.map_cons, List.map_nil]
    unfold dsigPoint
    norm_num [Real.exp_zero]
  have hscarr : scarrSig 0.95 [[(0 : ℝ)]] = [[0]] := by
    unfold scarrSig
    have hcols : colsOf [[(0 : ℝ)]] 0 = [[(0 : ℝ)]] := rfl
    rw [hcols]
    rw [List.map_cons, List.map_nil, hsig0]
    rfl
  have hc5 : ∀ x ∈ [(5 : ℝ), 5], x = mquantile [(5 : ℝ), 5] 0.95 := by
    have h55 : mquantile [(5 : ℝ), 5] 0.95 = 5 :=
      mquantile_const [5, 5] 5 0.95 (by simp) (by
        intro x hx
        rcases List.mem_cons.mp hx with h | h
        · exact h
        · simpa using h)
    intro x hx
    rw [h55]
    rcases List.mem_cons.mp hx with h | h
    · exact h
    · simpa using h
  refine ⟨hscarr, ⟨?_, by simp, (scarr_sigmoid_properties 0.95).1 [[(0 : ℝ)]]
      [(0 : ℝ)] ?_ 0 (by simp)⟩, ⟨hc5, (scarr_sigmoid_properties 0.95).2.1 [(5 : ℝ), 5] hc5⟩,
    rfl, le_refl 0, (scarr_sigmoid_properties 0.95).2.2 0 0 0 0 rfl (le_refl 0)⟩
  · rw [hscarr]
    simp
  · rw [hscarr]
    simp

/-- Claim C6: `scarr` whitening divides each feature column by its sample
standard deviation with ddof 1; a constant column becomes entirely the NaN
marker (never an infinity — the output entries of a nonconstant column are
always real values `x / std`), and a column with sample standard deviation 1
is unchanged. -/
theorem scarr_whiten_properties :
    (∀ col : List ℝ, stdCol col ≠ 0 →
      whitenCol col = col.map (fun x => some (x / stdCol col))) ∧
    (∀ (col : List ℝ) (c : ℝ), (∀ x ∈ col, x = c) →
      whitenCol col = col.map (fun _ => none)) ∧
    (∀ col : List ℝ, stdCol col = 1 → whitenCol col = col.map some) := by
  refine ⟨?_, ?_, ?_⟩
  · intro col h
    unfold whitenCol
    rw [if_neg h]
  · intro col c hconst
    have h0 : stdCol col = 0 := by
      by_cases hnil : col = []
      · subst hnil
        unfold stdCol
        norm_num
      · unfold stdCol
        have hlen0 : (col.length : ℝ) ≠ 0 := by
          have hpos : 1 ≤ col.length := by
            cases col with
            | nil => exact absurd rfl hnil
            | cons a t => simp
          have : col.length ≠ 0 := by omega
          exact_mod_cast this
        have hmean : rowMean col = c := by
          unfold rowMean
          have hrep : col = List.replicate col.length c := List.eq_replicate_length.mpr hconst
          conv_lhs => rw [hrep]
          rw [List.sum_replicate, List.length_replicate, nsmul_eq_mul]
          field_simp
        have hzero : (col.map (fun x => (x - rowMean col) ^ 2)).sum = 0 := by
          have hmc : col.map (fun x => (x - rowMean col) ^ 2) = col.map (fun _ => 0) := by
            apply List.map_congr_left
            intro x hx
            rw [hconst x hx, hmean]
            ring
          rw [hmc]
          simp
        rw [hzero, zero_div, Real.sqrt_zero]
    unfold whitenCol
    rw [if_pos h0]
  · intro col h1
    unfold whitenCol
    rw [if_neg (by rw [h1]; norm_num), h1]
    apply List.map_congr_left
    intro x _
    rw [div_one]

/-- Witness for C6: the constant column `[2, 2]` becomes `[none, none]`, and
the column `[0, sqrt 2]` has sample standard deviation exactly 1 and passes
through unchanged. -/
theorem scarr_whiten_properties_witness :
    (∀ x ∈ [(2 : ℝ), 2], x = 2) ∧ whitenCol [(2 : ℝ), 2] = [none, none] ∧
    stdCol [(0 : ℝ), Real.sqrt 2] = 1 ∧
    whitenCol [(0 : ℝ), Real.sqrt 2] = [(0 : ℝ), Real.sqrt 2].map some := by
  have hconst : ∀ x ∈ [(2 : ℝ), 2], x = 2 := by
    intro x hx
    rcases List.mem_cons.mp hx with h | h
    · exact h
    · simpa using h
  have hstd : stdCol [(0 : ℝ), Real.sqrt 2] = 1 := by
    unfold stdCol rowMean
    simp only [List.map_cons, List.map_nil, List.sum_cons, List.sum_nil, List.length_cons,
      List.length_nil]
    have h2 : Real.sqrt 2 ^ 2 = 2 := Real.sq_sqrt (by norm_num)
    have he : ((0 : ℝ) - (0 + (Real.sqrt 2 + 0)) / ((0 : ℕ) + 1 + 1 : ℕ)) ^ 2 +
        ((Real.sqrt 2 - (0 + (Real.sqrt 2 + 0)) / ((0 : ℕ) + 1 + 1 : ℕ)) ^ 2 + 0) = 1 := by
      push_cast
      nlinarith [h2]
    rw [he]
    norm_num
  exact ⟨hconst, (scarr_whiten_properties.2.1 [(2 : ℝ), 2] 2 hconst).trans rfl, hstd,
    scarr_whiten_properties.2.2 [(0 : ℝ), Real.sqrt 2] hstd⟩

/-- Claim C9 (implicit): in `scarr` sigmoid scaling both lower quantile
markers are the 0th percentile, so the location parameter equals the column
minimum; whenever the upper quantile strictly exceeds the minimum, every
value falls in the right-branch sigmoid and every output lies in [0, 1) —
never negative — with the column minimum mapping exactly to 0. -/
theorem sigmoid_right_branch (hi : ℝ) (col : List ℝ) (hne : col ≠ [])
    (hq : minD col < mquantile col hi) :
    mquantile col 0 = minD col ∧
    (∀ y ∈ sigCol hi col, 0 ≤ y ∧ y < 1) ∧
    (dsigPoint (mquantile col 0) (mquantile col 0) (mquantile col hi) (minD col) - 0.5) * 2
      = 0 := by
  have hz := mquantile_zero_eq_min col hne
  have har : mquantile col hi - minD col ≠ 0 := by
    have : 0 < mquantile col hi - minD col := by linarith
    linarith
  refine ⟨hz, ?_, ?_⟩
  · intro y hy
    unfold sigCol dsig at hy
    rw [List.map_map] at hy
    obtain ⟨x, hxmem, hxe⟩ := List.mem_map.mp hy
    rw [← hxe]
    simp only [Function.comp_apply]
    have hmin_le : minD col ≤ x := minD_le col x hxmem
    unfold dsigPoint
    dsimp only
    rw [hz]
    rw [if_neg (by rw [not_lt]; linarith)]
    rw [if_pos har]
    set z := (x - minD col) / (-0.5 * (mquantile col hi - minD col)) with hzdef
    have hzle : z ≤ 0 := by
      rw [hzdef]
      apply div_nonpos_of_nonneg_of_nonpos (by linarith)
      nlinarith
    have hexp_le : Real.exp z ≤ 1 := Real.exp_le_one_iff.mpr hzle
    have hexp_pos : 0 < Real.exp z := Real.exp_pos z
    have hf2 : ((2 : ℝ))⁻¹ ≤ (1 + Real.exp z)⁻¹ := inv_anti₀ (by linarith) (by linarith)
    have hf1 : (1 + Real.exp z)⁻¹ < 1 := inv_lt_one_of_one_lt₀ (by linarith)
    constructor
    · norm_num at hf2 ⊢
      linarith
    · linarith
  · rw [hz]
    unfold dsigPoint
    dsimp only
    rw [if_neg (by simp)]
    rw [if_pos har]
    rw [sub_self, zero_div, Real.exp_zero]
    norm_num

/-- Witness for C9 at the column `[0, 2]` with `hi = 0.95`: the upper
quantile is 2 > 0 = min, and the theorem's conclusions hold there. -/
theorem sigmoid_right_branch_witness :
    (([(0 : ℝ), 2] : List ℝ) ≠ []) ∧
    minD [(0 : ℝ), 2] < mquantile [(0 : ℝ), 2] 0.95 ∧
    (mquantile [(0 : ℝ), 2] 0 = minD [(0 : ℝ), 2] ∧
      (∀ y ∈ sigCol 0.95 [(0 : ℝ), 2], 0 ≤ y ∧ y < 1) ∧
      (dsigPoint (mquantile [(0 : ℝ), 2] 0) (mquantile [(0 : ℝ), 2] 0)
        (mquantile [(0 : ℝ), 2] 0.95) (minD [(0 : ℝ), 2]) - 0.5) * 2 = 0) := by
  have hmin : minD [(0 : ℝ), 2] = 0 := by simp [minD]
  have hsort : List.insertionSort (· ≤ ·) [(0 : ℝ), 2] = [0, 2] := by
    simp [List.insertionSort, List.orderedInsert]
  have hmq : mquantile [(0 : ℝ), 2] 0.95 = 2 := by
    unfold mquantile
    dsimp only
    rw [hsort]
    rw [show (([(0 : ℝ), 2] : List ℝ).length : ℝ) = ((2 : ℕ) : ℝ) from by norm_num]
    have hk : (⌊min (max (((2 : ℕ) : ℝ) * 0.95 + (0.4 + 0.95 * (1 - 0.4 - 0.4))) 1)
        (((2 : ℕ) : ℝ) - 1)⌋ : ℤ) = 1 := by
      norm_num
    rw [hk]
    have hg : min (max ((((2 : ℕ) : ℝ) * 0.95 + (0.4 + 0.95 * (1 - 0.4 - 0.4))) -
        ((1 : ℤ) : ℝ)) 0) 1 = 1 := by
      norm_num
    rw [hg]
    unfold getWrapped
    norm_num
  have hlt : minD [(0 : ℝ), 2] < mquantile [(0 : ℝ), 2] 0.95 := by
    rw [hmin, hmq]
    norm_num
  exact ⟨by simp, hlt, sigmoid_right_branch 0.95 [(0 : ℝ), 2] (by simp) hlt⟩
